import Mathlib

/-
Verification of the Conway-game engine in `src/games.py`.

A `Game` value is a pair of finite sets of games (Left and Right options).
The Python code stores the two sets as `frozenset`s of interned instances;
we model a frozenset as a list that is strictly sorted (by an injective
numeric encoding) and duplicate-free, so that structural equality of the
Lean values coincides with instance identity of the interned Python objects.

All recursive algorithms of the source (`Game._cmp`, the canonicalization
loops of `Game.__classcall__`, `Game._sum`, `Game.__neg__`, `Game._depth`,
`nimber`) are embedded as fuel-indexed structural recursions (so that they
compute inside the kernel) together with fuel-independence lemmas that give
the natural unfolding equations.
-/

namespace Conway

mutual

inductive Game where
  | mk : GList → GList → Game
  deriving DecidableEq

inductive GList where
  | nil : GList
  | cons : Game → GList → GList
  deriving DecidableEq

end

/-- List of games underlying a `GList`. -/
def GList.toList : GList → List Game
  | .nil => []
  | .cons g l => g :: l.toList

/-- Build a `GList` from a list of games. -/
def GList.ofList : List Game → GList
  | [] => .nil
  | g :: l => .cons g (GList.ofList l)

/-- Left option set of a game, as a list (models `self.L`). -/
def Game.L : Game → List Game
  | .mk l _ => l.toList

/-- Right option set of a game, as a list (models `self.R`). -/
def Game.R : Game → List Game
  | .mk _ r => r.toList

/-- Build a game from two lists of options (the raw pair constructor,
before any canonicalization). -/
def gmk (L R : List Game) : Game := Game.mk (GList.ofList L) (GList.ofList R)

mutual

/-- Structural size of a game; used as fuel bound for the recursions. -/
def Game.size : Game → Nat
  | .mk l r => l.size + r.size + 1

/-- Structural size of a `GList`. -/
def GList.size : GList → Nat
  | .nil => 0
  | .cons g l => g.size + l.size

end

/-- Total size of a list of games. -/
def sizeL (xs : List Game) : Nat := (xs.map Game.size).sum

mutual

/-- Injective numeric encoding of games; its order on encodings models the
(arbitrary but fixed) iteration order of the Python frozensets. -/
def Game.enc : Game → Nat
  | .mk l r => Nat.pair l.enc r.enc

/-- Numeric encoding of a `GList`. -/
def GList.enc : GList → Nat
  | .nil => 0
  | .cons g l => Nat.pair g.enc l.enc + 1

end

/-- Encoding of a list of games. -/
def encL : List Game → Nat
  | [] => 0
  | g :: l => Nat.pair g.enc (encL l) + 1

/-- Ordering of games by their encoding; models the fixed enumeration order
of a Python frozenset of interned games. -/
def encLE (a b : Game) : Prop := a.enc ≤ b.enc

/-- Insert a game into an encoding-sorted list. -/
def insertG (a : Game) : List Game → List Game
  | [] => [a]
  | b :: bs => if a.enc ≤ b.enc then a :: b :: bs else b :: insertG a bs

/-- Insertion sort by encoding. -/
def isort : List Game → List Game
  | [] => []
  | a :: as => insertG a (isort as)

/-- The model of `frozenset`: drop duplicates, then order by encoding. -/
def sortDedup (xs : List Game) : List Game := isort xs.dedup

/-- The four possible results of `Game._cmp`: the Python values `-1`, `0`,
`1` and the `Fuzzy` sentinel. -/
inductive CmpRes where
  | lt : CmpRes
  | eq : CmpRes
  | gt : CmpRes
  | fz : CmpRes
  deriving DecidableEq

/-- Models the Python test `c >= 0` on a `_cmp` result (true for `0` and
`1`, false for `-1` and `Fuzzy`, since every comparison on `Fuzzy` is false). -/
def CmpRes.isGe : CmpRes → Bool
  | .eq => true
  | .gt => true
  | _ => false

/-- Models the Python test `c <= 0` on a `_cmp` result. -/
def CmpRes.isLe : CmpRes → Bool
  | .eq => true
  | .lt => true
  | _ => false

/-- Models the Python test `c > 0` on a `_cmp` result. -/
def CmpRes.isGt : CmpRes → Bool
  | .gt => true
  | _ => false

/-- Models the Python test `c < 0` on a `_cmp` result. -/
def CmpRes.isLt : CmpRes → Bool
  | .lt => true
  | _ => false

/-- Fuel-indexed embedding of `Game._cmp` (src/games.py lines 224-240):
`x_le_y` holds iff no Left option of `x` compares `>= 0` against `y` and no
Right option of `y` has `x` comparing `>= 0` against it; symmetrically for
`y_le_x`; the four-valued result combines the two flags. -/
def cmpF : Nat → Game → Game → CmpRes
  | 0, _, _ => .fz
  | n + 1, x, y =>
    let xley := (x.L.all fun xl => !(cmpF n xl y).isGe) &&
                (y.R.all fun yr => !(cmpF n x yr).isGe)
    let ylex := (y.L.all fun yl => !(cmpF n yl x).isGe) &&
                (x.R.all fun xr => !(cmpF n y xr).isGe)
    if xley then (if ylex then .eq else .lt)
    else (if ylex then .gt else .fz)

/-- The function `Game._cmp`, at a fuel that the stability lemma shows is sufficient. -/
def Game.cmp (x y : Game) : CmpRes := cmpF (x.size + y.size) x y

/-- The boolean flag `x_le_y` computed inside `Game._cmp`: the game-theoretic
relation x <= y. -/
def Game.leB (x y : Game) : Bool :=
  (x.L.all fun xl => !(Game.cmp xl y).isGe) &&
  (y.R.all fun yr => !(Game.cmp x yr).isGe)

/-- One pass of the domination scan of the Left loop in `Game.__classcall__`
(src/games.py lines 109-114): walk the remaining queue; drop `y` when
`cmp(x,y) > 0` (y dominated by x), stop and drop x when `cmp(x,y) < 0`
(x dominated by y).  Returns the remaining queue and whether x is kept. -/
def scanL (x : Game) : List Game → List Game × Bool
  | [] => ([], true)
  | y :: ys =>
    if (Game.cmp x y).isGt then scanL x ys
    else if (Game.cmp x y).isLt then (y :: ys, false)
    else
      let p := scanL x ys
      (y :: p.1, p.2)

/-- Mirror of `scanL` for the Right loop (src/games.py lines 127-132):
drop `y` when `cmp(x,y) < 0`, stop when `cmp(x,y) > 0`. -/
def scanR (x : Game) : List Game → List Game × Bool
  | [] => ([], true)
  | y :: ys =>
    if (Game.cmp x y).isLt then scanR x ys
    else if (Game.cmp x y).isGt then (y :: ys, false)
    else
      let p := scanR x ys
      (y :: p.1, p.2)

/-- Fuel-indexed embedding of the Left while-loop of `Game.__classcall__`
(src/games.py lines 98-115): pop the first candidate; if some of its Right
options is <= the provisional game g the candidate is reversible and its
Left options are spliced onto the end of the queue; otherwise the
domination scan decides which queue entries are dominated and whether the
candidate is appended to the survivor list `arr`. -/
def leftLoopF : Nat → Game → List Game → List Game → List Game
  | 0, _, arr, _ => arr
  | _ + 1, _, arr, [] => arr
  | n + 1, g, arr, x :: queue =>
    match x.R.find? (fun xr => (Game.cmp xr g).isLe) with
    | some xr => leftLoopF n g arr (queue ++ xr.L)
    | none =>
      let p := scanL x queue
      leftLoopF n g (if p.2 then arr ++ [x] else arr) p.1

/-- Mirror of `leftLoopF` for the Right while-loop (src/games.py lines
116-133): a Right candidate is reversible when one of its Left options is
>= the provisional game; its Right options are then spliced in. -/
def rightLoopF : Nat → Game → List Game → List Game → List Game
  | 0, _, arr, _ => arr
  | _ + 1, _, arr, [] => arr
  | n + 1, g, arr, x :: queue =>
    match x.L.find? (fun xl => (Game.cmp xl g).isGe) with
    | some xl => rightLoopF n g arr (queue ++ xl.R)
    | none =>
      let p := scanR x queue
      rightLoopF n g (if p.2 then arr ++ [x] else arr) p.1

/-- The Left loop of `Game.__classcall__`, at a sufficient fuel. -/
def leftLoop (g : Game) (arr queue : List Game) : List Game :=
  leftLoopF (sizeL queue + 1) g arr queue

/-- The Right loop of `Game.__classcall__`, at a sufficient fuel. -/
def rightLoop (g : Game) (arr queue : List Game) : List Game :=
  rightLoopF (sizeL queue + 1) g arr queue

/-- Interning (the `CachedRepresentation` key step): both option lists are
frozen to their set of members, in the fixed enumeration order. -/
def intern (L R : List Game) : Game := gmk (sortDedup L) (sortDedup R)

/-- Embedding of `Game.__classcall__` for already-built option lists
(src/games.py lines 96-135): build the provisional interned game, run the
two reduction loops against it, and intern the reduced pair. -/
def canonical (L R : List Game) : Game :=
  intern (leftLoop (intern L R) [] (intern L R).L)
         (rightLoop (intern L R) [] (intern L R).R)

/-- The zero game `Game()` (src/games.py line 263). -/
def zeroG : Game := gmk [] []

/-- Python operator `self > other` (src/games.py lines 242-243). -/
def Game.gtOp (x y : Game) : Bool := (Game.cmp x y).isGt

/-- Python operator `self < other` (src/games.py lines 244-245). -/
def Game.ltOp (x y : Game) : Bool := (Game.cmp x y).isLt

/-- Python operator `self >= other` (src/games.py lines 246-247). -/
def Game.geOp (x y : Game) : Bool := (Game.cmp x y).isGe

/-- Python operator `self <= other` (src/games.py lines 248-249). -/
def Game.leOp (x y : Game) : Bool := (Game.cmp x y).isLe

/-- Fuel-indexed embedding of `Game._sum` (src/games.py lines 186-193). -/
def addF : Nat → Game → Game → Game
  | 0, _, _ => zeroG
  | n + 1, x, y =>
    canonical
      ((x.L.map fun xl => addF n xl y) ++ (y.L.map fun yl => addF n x yl))
      ((x.R.map fun xr => addF n xr y) ++ (y.R.map fun yr => addF n x yr))

/-- Game sum `x + y`, at a sufficient fuel. -/
def Game.add (x y : Game) : Game := addF (x.size + y.size) x y

/-- Fuel-indexed embedding of `Game.__neg__` (src/games.py lines 200-204). -/
def negF : Nat → Game → Game
  | 0, _ => zeroG
  | n + 1, x => canonical (x.R.map (negF n)) (x.L.map (negF n))

/-- Game negation `-x`, at a sufficient fuel. -/
def Game.neg (x : Game) : Game := negF x.size x

/-- Fuel-indexed embedding of `Game._depth` (src/games.py lines 251-256):
0 for the interned zero instance, otherwise one more than the maximal depth
of an option.  (The Python `max` is never applied to an empty sequence,
because the only game with no options is the zero instance itself.) -/
def depthF : Nat → Game → Nat
  | 0, _ => 0
  | n + 1, g =>
    if g = zeroG then 0
    else ((g.L ++ g.R).map (depthF n)).foldr max 0 + 1

/-- The birthday `len(g)` computed by `Game._depth`, at a sufficient fuel. -/
def Game.depth (g : Game) : Nat := depthF g.size g

/-- Fuel-indexed embedding of `nimber` (src/games.py lines 267-272):
`nimber(n)` is `Game([nimber(i) for i in range(n)])`, i.e. the impartial
game with L = R = the list of smaller nimbers. -/
def nimberF : Nat → Nat → Game
  | 0, _ => zeroG
  | f + 1, n =>
    canonical ((List.range n).map (nimberF f)) ((List.range n).map (nimberF f))

/-- The game `nimber(n)`, at a sufficient fuel. -/
def nimber (n : Nat) : Game := nimberF (n + 1) n

/-- The constant `star = Game([zero],[zero])` (src/games.py line 264). -/
def starG : Game := canonical [zeroG] [zeroG]

/-- The constant `up = Game([zero],[star])` (src/games.py line 265). -/
def upG : Game := canonical [zeroG] [starG]

/-- The constant `down = Game([star],[zero])` (src/games.py line 266). -/
def downG : Game := canonical [starG] [zeroG]

/-- Sage `is_power_of_two` on a positive natural number, written as a
bounded search so that it evaluates inside the kernel. -/
def isPowOfTwo (n : Nat) : Bool := (List.range (n + 1)).any fun k => n == 2 ^ k

/-- An exact rational number, as a numerator and a positive denominator.
Values handed to the constructor model already-reduced Sage `Rational`s
(so `.den` is the true denominator); the intermediate values of the
bisection loop are kept unreduced, and all tests on them are value-exact
(cross-multiplication), matching exact rational arithmetic. -/
structure PyRat where
  num : Int
  den : Nat
  deriving DecidableEq

/-- Exact value equality of rationals (cross multiplication). -/
def PyRat.beq (a b : PyRat) : Bool := a.num * (b.den : Int) == b.num * (a.den : Int)

/-- Exact value order of rationals (cross multiplication). -/
def PyRat.blt (a b : PyRat) : Bool := a.num * (b.den : Int) < b.num * (a.den : Int)

/-- Exact rational sum (no reduction needed for value-exact tests). -/
def PyRat.add (a b : PyRat) : PyRat :=
  ⟨a.num * (b.den : Int) + b.num * (a.den : Int), a.den * b.den⟩

/-- Exact rational halving. -/
def PyRat.half (a : PyRat) : PyRat := ⟨a.num, a.den * 2⟩

/-- The rational one. -/
def PyRat.one : PyRat := ⟨1, 1⟩

/-- The rational minus one. -/
def PyRat.negOne : PyRat := ⟨-1, 1⟩

/-- The rational zero. -/
def PyRat.zero : PyRat := ⟨0, 1⟩

/-- Fuel-indexed embedding of the bisection loop of `Game.__classcall__`
(src/games.py lines 83-92): starting from the interval (-oo, oo) and
midpoint 0, repeatedly build the singleton option-set game `Game(L,R)` on
the side of the target and halve the gap (or step by 1 while unbounded)
until the midpoint hits the target.  `none` encodes an infinite bound.
The fuel used by `fromValue` is large enough for every dyadic target, and
on fuel exhaustion the current state is returned (never reached below). -/
def bisectF : Nat → PyRat → List Game → List Game → Option PyRat → PyRat → Option PyRat →
    List Game × List Game
  | 0, _, L, R, _, _, _ => (L, R)
  | n + 1, arg, L, R, l, m, r =>
    if PyRat.beq arg m then (L, R)
    else if PyRat.blt m arg then
      bisectF n arg [canonical L R] R (some m)
        (match r with | some rv => (PyRat.add m rv).half | none => PyRat.add m PyRat.one) r
    else
      bisectF n arg L [canonical L R] l
        (match l with | some lv => (PyRat.add lv m).half | none => PyRat.add m PyRat.negOne)
        (some m)

mutual

/-- A dynamic Python value passed to the `Game` constructor: an existing
`Game`, a finite number, an iterable, or anything else. -/
inductive PyVal where
  | game : Game → PyVal
  | num : PyRat → PyVal
  | iter : PyList → PyVal
  | other : PyVal

/-- A Python list of constructor arguments. -/
inductive PyList where
  | nil : PyList
  | cons : PyVal → PyList → PyList

end

/-- Build a `PyList` from a Lean list. -/
def PyList.ofList : List PyVal → PyList
  | [] => .nil
  | v :: vs => .cons v (PyList.ofList vs)

mutual

/-- Embedding of the one-argument dispatch of `Game.__classcall__`
(src/games.py lines 73-94): a `Game` is returned unchanged, an iterable
becomes the impartial game on its elements, a finite number is built by
bisection after the dyadic-denominator check, anything else raises
`ValueError("Wrong arguments.")`. -/
def fromValue : PyVal → Except String Game
  | .game g => Except.ok g
  | .iter vs =>
    match fromPyList vs with
    | Except.ok gs => Except.ok (canonical gs gs)
    | Except.error e => Except.error e
  | .num q =>
    if isPowOfTwo q.den then
      Except.ok (canonical
        (bisectF (q.num.natAbs + q.den + 2) q [] [] none PyRat.zero none).1
        (bisectF (q.num.natAbs + q.den + 2) q [] [] none PyRat.zero none).2)
    else Except.error "The number is not a dyadic rational."
  | .other => Except.error "Wrong arguments."

/-- Coerce every element of an argument list through the constructor,
propagating the first domain error (models `[Game(g) for g in arg]`). -/
def fromPyList : PyList → Except String (List Game)
  | .nil => Except.ok []
  | .cons v vs =>
    match fromValue v with
    | Except.error e => Except.error e
    | Except.ok g =>
      match fromPyList vs with
      | Except.error e => Except.error e
      | Except.ok gs => Except.ok (g :: gs)

end

/-- Embedding of the two-argument form `Game(arg, arg2)` (src/games.py
lines 70-72): both iterables are coerced elementwise and canonicalized. -/
def fromPair (vs ws : PyList) : Except String Game :=
  match fromPyList vs with
  | Except.error e => Except.error e
  | Except.ok L =>
    match fromPyList ws with
    | Except.error e => Except.error e
    | Except.ok R => Except.ok (canonical L R)

/-- Python `x + right` (src/games.py lines 195-196): the right operand is
coerced through the constructor first. -/
def addOp (x : Game) (v : PyVal) : Except String Game :=
  match fromValue v with
  | Except.error e => Except.error e
  | Except.ok y => Except.ok (Game.add x y)

/-- Python `x < other` with coercion of the right operand. -/
def ltPyOp (x : Game) (v : PyVal) : Except String Bool :=
  match fromValue v with
  | Except.error e => Except.error e
  | Except.ok y => Except.ok (Game.ltOp x y)

instance {e a : Type} [DecidableEq e] [DecidableEq a] : DecidableEq (Except e a) := fun x y =>
  match x, y with
  | Except.ok u, Except.ok v =>
    if h : u = v then Decidable.isTrue (by rw [h])
    else Decidable.isFalse (fun hc => h (Except.ok.inj hc))
  | Except.error u, Except.error v =>
    if h : u = v then Decidable.isTrue (by rw [h])
    else Decidable.isFalse (fun hc => h (Except.error.inj hc))
  | Except.ok _, Except.error _ => Decidable.isFalse (fun hc => Except.noConfusion hc)
  | Except.error _, Except.ok _ => Decidable.isFalse (fun hc => Except.noConfusion hc)

/-- The game `Game(1)`, i.e. `{0|}`. -/
def oneG : Game := canonical [zeroG] []

/-- The game `Game(2)`, i.e. `{1|}`. -/
def twoG : Game := canonical [oneG] []

/-- The game `Game([1],[star])`, i.e. `{1|*}`; its Right option `*` makes it
reversible inside the construction below. -/
def xRevG : Game := canonical [oneG] [starG]

/-- The game `Game([1, Game([1],[star])], [2])`: the provisional game is
`{1, {1|*} | 2}` in which `{1|*}` is a reversible Left candidate (since
`* <= g`), processed after the surviving candidate `1`; its replacement `0`
is spliced into the work queue after `1` has already been accepted, so the
dominated pair `0, 1` survives into the Left set. -/
def bugG : Game := canonical [oneG, xRevG] [twoG]

/-- The game `Game(3/2)`, i.e. `{1|2}`, the canonical form of 3/2. -/
def threeHalvesG : Game := canonical [oneG] [twoG]

/-- The game `Game(1/4)`, i.e. `{0|{0|1}}`. -/
def quarterG : Game := canonical [zeroG] [canonical [zeroG] [oneG]]

/-- The comparison rule as the specification states it: every Left option
`xl` of `x` has `compare(xl,y)` outside {GREATER, EQUAL} and every Right
option `yr` of `y` has `compare(x,yr)` outside {GREATER, EQUAL}. -/
def specLeRule (x y : Game) : Prop :=
  (∀ xl ∈ x.L, Game.cmp xl y ≠ CmpRes.gt ∧ Game.cmp xl y ≠ CmpRes.eq) ∧
  (∀ yr ∈ y.R, Game.cmp x yr ≠ CmpRes.gt ∧ Game.cmp x yr ≠ CmpRes.eq)

/-- The explicit structural value of `nimber(n)`: both option sets are the
frozenset of the smaller nim games.  `nimber_eq_nimS` below shows the
memoized `nimber` of the source produces exactly these instances. -/
def nimS : Nat → Game
  | n => gmk (sortDedup ((List.range n).attach.map fun i => nimS i.1))
             (sortDedup ((List.range n).attach.map fun i => nimS i.1))
decreasing_by
  all_goals exact List.mem_range.1 i.2

/-- The sorted option list of the explicit nim game of heap size n. -/
def nimSL (n : Nat) : List Game := sortDedup ((List.range n).map nimS)

/-- The memoized `nimber` of the source produces exactly the explicit nim

instances: canonicalization leaves the pairwise-incomparable, irreversible
nimber options untouched. -/

theorem GList.toList_ofList : ∀ xs : List Game, (GList.ofList xs).toList = xs
  | [] => rfl
  | a :: as => by simp [GList.ofList, GList.toList, GList.toList_ofList as]

theorem GList.ofList_toList : ∀ l : GList, GList.ofList l.toList = l
  | .nil => rfl
  | .cons a as => by simp [GList.toList, GList.ofList, GList.ofList_toList as]

theorem gmk_L (L R : List Game) : (gmk L R).L = L := by
  simp [gmk, Game.L, GList.toList_ofList]

theorem gmk_R (L R : List Game) : (gmk L R).R = R := by
  simp [gmk, Game.R, GList.toList_ofList]

theorem Game.eta (g : Game) : gmk g.L g.R = g := by
  cases g with
  | mk l r => simp [gmk, Game.L, Game.R, GList.ofList_toList]

theorem gmk_inj {L R L' R' : List Game} (h : gmk L R = gmk L' R') : L = L' ∧ R = R' := by
  have hL := congrArg Game.L h
  have hR := congrArg Game.R h
  rw [gmk_L, gmk_L] at hL
  rw [gmk_R, gmk_R] at hR
  exact ⟨hL, hR⟩

theorem GList.size_eq_sizeL : ∀ l : GList, l.size = sizeL l.toList
  | .nil => by simp [GList.size, GList.toList, sizeL]
  | .cons a as => by
    rw [GList.size, GList.size_eq_sizeL as]
    simp [GList.toList, sizeL]

theorem Game.size_eq (g : Game) : g.size = sizeL g.L + sizeL g.R + 1 := by
  cases g with
  | mk l r =>
    show (Game.mk l r).size = _
    rw [Game.size]
    simp [Game.L, Game.R, GList.size_eq_sizeL]

theorem sizeL_nil : sizeL [] = 0 := rfl

theorem sizeL_cons (a : Game) (xs : List Game) : sizeL (a :: xs) = a.size + sizeL xs := by
  simp [sizeL]

theorem sizeL_append (xs ys : List Game) : sizeL (xs ++ ys) = sizeL xs + sizeL ys := by
  simp [sizeL]

theorem Game.size_pos (g : Game) : 0 < g.size := by
  rw [Game.size_eq]; omega

theorem size_le_sizeL {a : Game} {xs : List Game} (h : a ∈ xs) : a.size ≤ sizeL xs := by
  induction xs with
  | nil => cases h
  | cons b bs ih =>
    rw [sizeL_cons]
    rcases List.mem_cons.1 h with h1 | h1
    · subst h1; omega
    · have := ih h1; omega

theorem size_lt_of_mem_L {a x : Game} (h : a ∈ x.L) : a.size < x.size := by
  have h1 := size_le_sizeL h
  have h2 := x.size_eq
  omega

theorem size_lt_of_mem_R {a x : Game} (h : a ∈ x.R) : a.size < x.size := by
  have h1 := size_le_sizeL h
  have h2 := x.size_eq
  omega

theorem GList.enc_eq_encL : ∀ l : GList, l.enc = encL l.toList
  | .nil => rfl
  | .cons a as => by
    rw [GList.enc, GList.enc_eq_encL as]
    simp [GList.toList, encL]

theorem Game.enc_gmk (L R : List Game) : (gmk L R).enc = Nat.pair (encL L) (encL R) := by
  simp [gmk, Game.enc, GList.enc_eq_encL, GList.toList_ofList]

theorem enc_injective_aux :
    ∀ n, (∀ g h : Game, g.size ≤ n → g.enc = h.enc → g = h) ∧
      (∀ xs ys : List Game, sizeL xs ≤ n → encL xs = encL ys → xs = ys) := by
  intro n
  induction n with
  | zero =>
    constructor
    · intro g _ hs
      have := g.size_pos
      omega
    · intro xs ys hs he
      cases xs with
      | nil =>
        cases ys with
        | nil => rfl
        | cons b bs => simp [encL] at he
      | cons a as =>
        cases ys with
        | nil => simp [encL] at he
        | cons b bs =>
          simp [encL] at he
          have ha := (Game.size_pos a)
          rw [sizeL_cons] at hs
          omega
  | succ n ih =>
    have h1 : ∀ g h : Game, g.size ≤ n + 1 → g.enc = h.enc → g = h := by
      intro g h hs he
      rcases g with ⟨gl, gr⟩
      rcases h with ⟨hl, hr⟩
      rw [Game.enc, Game.enc] at he
      have h2 := Nat.pair_eq_pair.1 he
      rw [GList.enc_eq_encL, GList.enc_eq_encL] at h2
      rw [GList.enc_eq_encL, GList.enc_eq_encL] at h2
      have hsz : (Game.mk gl gr).size = gl.size + gr.size + 1 := by rw [Game.size]
      have hsl : sizeL gl.toList ≤ n := by
        have := gl.size_eq_sizeL
        omega
      have hsr : sizeL gr.toList ≤ n := by
        have := gr.size_eq_sizeL
        omega
      have e1 := ih.2 gl.toList hl.toList hsl h2.1
      have e2 := ih.2 gr.toList hr.toList hsr h2.2
      have : gl = hl := by
        have := congrArg GList.ofList e1
        rwa [GList.ofList_toList, GList.ofList_toList] at this
      have : gr = hr := by
        have := congrArg GList.ofList e2
        rwa [GList.ofList_toList, GList.ofList_toList] at this
      subst_vars; rfl
    refine ⟨h1, ?_⟩
    intro xs ys hs he
    cases xs with
    | nil =>
      cases ys with
      | nil => rfl
      | cons b bs => simp [encL] at he
    | cons a as =>
      cases ys with
      | nil => simp [encL] at he
      | cons b bs =>
        simp only [encL, Nat.add_right_cancel_iff] at he
        have h2 := Nat.pair_eq_pair.1 he
        rw [sizeL_cons] at hs
        have has : sizeL as ≤ n := by
          have := Game.size_pos a
          omega
        have e1 := h1 a b (by omega) h2.1
        have e2 := ih.2 as bs has h2.2
        rw [e1, e2]

theorem Game.enc_injective {g h : Game} (he : g.enc = h.enc) : g = h :=
  (enc_injective_aux g.size).1 g h le_rfl he

theorem insertG_perm (a : Game) (xs : List Game) : List.Perm (insertG a xs) (a :: xs) := by
  induction xs with
  | nil => rfl
  | cons b bs ih =>
    rw [insertG]
    by_cases h : a.enc ≤ b.enc
    · simp [h]
    · simp only [h, if_false]
      exact ((ih.cons b).trans (List.Perm.swap a b bs))

theorem isort_perm (xs : List Game) : List.Perm (isort xs) xs := by
  induction xs with
  | nil => rfl
  | cons a as ih =>
    rw [isort]
    exact (insertG_perm a (isort as)).trans (ih.cons a)

theorem insertG_sorted {a : Game} {xs : List Game} (h : xs.Sorted encLE) :
    (insertG a xs).Sorted encLE := by
  induction xs with
  | nil => simp [insertG]
  | cons b bs ih =>
    rw [insertG]
    by_cases hab : a.enc ≤ b.enc
    · simp only [hab, if_true]
      refine List.sorted_cons.2 ⟨?_, h⟩
      intro c hc
      rcases List.mem_cons.1 hc with h1 | h1
      · subst h1; exact hab
      · exact Nat.le_trans hab ((List.sorted_cons.1 h).1 c h1)
    · simp only [hab, if_false]
      have hs := List.sorted_cons.1 h
      refine List.sorted_cons.2 ⟨?_, ih hs.2⟩
      intro c hc
      have hc2 := (insertG_perm a bs).mem_iff.1 hc
      rcases List.mem_cons.1 hc2 with h1 | h1
      · subst h1; exact Nat.le_of_lt (Nat.lt_of_not_le hab)
      · exact hs.1 c h1

theorem isort_sorted (xs : List Game) : (isort xs).Sorted encLE := by
  induction xs with
  | nil => simp [isort]
  | cons a as ih => exact insertG_sorted ih

theorem sortDedup_perm_dedup (xs : List Game) : List.Perm (sortDedup xs) xs.dedup :=
  isort_perm xs.dedup

theorem mem_sortDedup {a : Game} {xs : List Game} : a ∈ sortDedup xs ↔ a ∈ xs := by
  rw [(sortDedup_perm_dedup xs).mem_iff, List.mem_dedup]

theorem sortDedup_nodup (xs : List Game) : (sortDedup xs).Nodup :=
  (sortDedup_perm_dedup xs).nodup_iff.2 xs.nodup_dedup

theorem sortDedup_sorted (xs : List Game) : (sortDedup xs).Sorted encLE :=
  isort_sorted xs.dedup

/-- Two frozensets with the same members are the same frozenset. -/
theorem sortDedup_eq_of_mem_iff {xs ys : List Game}
    (h : ∀ a, a ∈ xs ↔ a ∈ ys) : sortDedup xs = sortDedup ys := by
  have hperm : List.Perm (sortDedup xs) (sortDedup ys) := by
    rw [List.perm_ext_iff_of_nodup (sortDedup_nodup xs) (sortDedup_nodup ys)]
    intro a
    rw [mem_sortDedup, mem_sortDedup]
    exact h a
  haveI : IsAntisymm Game encLE :=
    ⟨fun _ _ h1 h2 => Game.enc_injective (Nat.le_antisymm h1 h2)⟩
  exact List.eq_of_perm_of_sorted hperm (sortDedup_sorted xs) (sortDedup_sorted ys)

theorem sortDedup_of_sorted_nodup {xs : List Game}
    (hs : xs.Sorted encLE) (hn : xs.Nodup) : sortDedup xs = xs := by
  have hperm : List.Perm (sortDedup xs) xs := by
    rw [List.perm_ext_iff_of_nodup (sortDedup_nodup xs) hn]
    intro a
    exact mem_sortDedup
  haveI : IsAntisymm Game encLE :=
    ⟨fun _ _ h1 h2 => Game.enc_injective (Nat.le_antisymm h1 h2)⟩
  exact List.eq_of_perm_of_sorted hperm (sortDedup_sorted xs) hs

theorem sortDedup_idem (xs : List Game) : sortDedup (sortDedup xs) = sortDedup xs :=
  sortDedup_of_sorted_nodup (sortDedup_sorted xs) (sortDedup_nodup xs)

theorem allCongr {p q : Game → Bool} {l : List Game} (h : ∀ a ∈ l, p a = q a) :
    l.all p = l.all q := by
  induction l with
  | nil => rfl
  | cons b bs ih =>
    rw [List.all_cons, List.all_cons, h b (List.mem_cons_self b bs),
      ih fun a ha => h a (List.mem_cons_of_mem b ha)]

theorem cmpF_succ_eq (m : Nat) (x y : Game) (hm : x.size + y.size ≤ m + 1)
    (ihm : ∀ a b : Game, a.size + b.size ≤ m → cmpF m a b = Game.cmp a b) :
    cmpF (m + 1) x y =
    (if ((x.L.all fun xl => !(Game.cmp xl y).isGe) &&
         (y.R.all fun yr => !(Game.cmp x yr).isGe)) then
      (if ((y.L.all fun yl => !(Game.cmp yl x).isGe) &&
           (x.R.all fun xr => !(Game.cmp y xr).isGe)) then .eq else .lt)
    else
      (if ((y.L.all fun yl => !(Game.cmp yl x).isGe) &&
           (x.R.all fun xr => !(Game.cmp y xr).isGe)) then .gt else .fz)) := by
  rw [cmpF]
  have e1 : (x.L.all fun xl => !(cmpF m xl y).isGe) =
      (x.L.all fun xl => !(Game.cmp xl y).isGe) := by
    apply allCongr
    intro a ha
    rw [ihm a y (by have := size_lt_of_mem_L ha; omega)]
  have e2 : (y.R.all fun yr => !(cmpF m x yr).isGe) =
      (y.R.all fun yr => !(Game.cmp x yr).isGe) := by
    apply allCongr
    intro a ha
    rw [ihm x a (by have := size_lt_of_mem_R ha; omega)]
  have e3 : (y.L.all fun yl => !(cmpF m yl x).isGe) =
      (y.L.all fun yl => !(Game.cmp yl x).isGe) := by
    apply allCongr
    intro a ha
    rw [ihm a x (by have := size_lt_of_mem_L ha; omega)]
  have e4 : (x.R.all fun xr => !(cmpF m y xr).isGe) =
      (x.R.all fun xr => !(Game.cmp y xr).isGe) := by
    apply allCongr
    intro a ha
    rw [ihm y a (by have := size_lt_of_mem_R ha; omega)]
  simp only [e1, e2, e3, e4]

theorem cmpF_stable :
    ∀ n x y, x.size + y.size ≤ n → cmpF n x y = Game.cmp x y := by
  intro n
  induction n using Nat.strong_induction_on with
  | _ n ih =>
    intro x y h
    have hx := x.size_pos
    have hy := y.size_pos
    obtain ⟨k, rfl⟩ : ∃ k, n = k + 1 := ⟨n - 1, by omega⟩
    by_cases heq : x.size + y.size = k + 1
    · rw [Game.cmp, heq]
    · have hle : x.size + y.size ≤ k := by omega
      obtain ⟨m, hm⟩ : ∃ m, x.size + y.size = m + 1 := ⟨x.size + y.size - 1, by omega⟩
      have ihk : ∀ a b : Game, a.size + b.size ≤ k → cmpF k a b = Game.cmp a b :=
        fun a b hab => ih k (by omega) a b hab
      have ihm : ∀ a b : Game, a.size + b.size ≤ m → cmpF m a b = Game.cmp a b :=
        fun a b hab => ih m (by omega) a b hab
      rw [cmpF_succ_eq k x y (by omega) ihk]
      have h2 : Game.cmp x y = cmpF (m + 1) x y := by rw [Game.cmp, hm]
      rw [h2, cmpF_succ_eq m x y (by omega) ihm]

theorem cmp_unfold (x y : Game) :
    Game.cmp x y =
    (if ((x.L.all fun xl => !(Game.cmp xl y).isGe) &&
         (y.R.all fun yr => !(Game.cmp x yr).isGe)) then
      (if ((y.L.all fun yl => !(Game.cmp yl x).isGe) &&
           (x.R.all fun xr => !(Game.cmp y xr).isGe)) then .eq else .lt)
    else
      (if ((y.L.all fun yl => !(Game.cmp yl x).isGe) &&
           (x.R.all fun xr => !(Game.cmp y xr).isGe)) then .gt else .fz)) := by
  have hx := x.size_pos
  have hy := y.size_pos
  obtain ⟨m, hm⟩ : ∃ m, x.size + y.size = m + 1 := ⟨x.size + y.size - 1, by omega⟩
  have h2 : Game.cmp x y = cmpF (m + 1) x y := by rw [Game.cmp, hm]
  rw [h2, cmpF_succ_eq m x y (by omega)
    (fun a b hab => cmpF_stable m a b hab)]

theorem cmp_eq_leB (x y : Game) :
    Game.cmp x y =
    (if x.leB y then (if y.leB x then .eq else .lt)
     else (if y.leB x then .gt else .fz)) := by
  rw [cmp_unfold]; rfl

theorem isGe_cmp (x y : Game) : (Game.cmp x y).isGe = y.leB x := by
  rw [cmp_eq_leB]
  cases hx : x.leB y <;> cases hy : y.leB x <;> simp [CmpRes.isGe]

theorem isLe_cmp (x y : Game) : (Game.cmp x y).isLe = x.leB y := by
  rw [cmp_eq_leB]
  cases hx : x.leB y <;> cases hy : y.leB x <;> simp [CmpRes.isLe]

theorem isGt_cmp (x y : Game) : (Game.cmp x y).isGt = (!x.leB y && y.leB x) := by
  rw [cmp_eq_leB]
  cases hx : x.leB y <;> cases hy : y.leB x <;> simp [CmpRes.isGt]

theorem isLt_cmp (x y : Game) : (Game.cmp x y).isLt = (x.leB y && !y.leB x) := by
  rw [cmp_eq_leB]
  cases hx : x.leB y <;> cases hy : y.leB x <;> simp [CmpRes.isLt]

theorem cmp_eq_eq_iff {x y : Game} :
    Game.cmp x y = .eq ↔ x.leB y = true ∧ y.leB x = true := by
  rw [cmp_eq_leB]
  cases hx : x.leB y <;> cases hy : y.leB x <;> simp

theorem cmp_eq_lt_iff {x y : Game} :
    Game.cmp x y = .lt ↔ x.leB y = true ∧ y.leB x = false := by
  rw [cmp_eq_leB]
  cases hx : x.leB y <;> cases hy : y.leB x <;> simp

theorem cmp_eq_gt_iff {x y : Game} :
    Game.cmp x y = .gt ↔ x.leB y = false ∧ y.leB x = true := by
  rw [cmp_eq_leB]
  cases hx : x.leB y <;> cases hy : y.leB x <;> simp

theorem cmp_eq_fz_iff {x y : Game} :
    Game.cmp x y = .fz ↔ x.leB y = false ∧ y.leB x = false := by
  rw [cmp_eq_leB]
  cases hx : x.leB y <;> cases hy : y.leB x <;> simp

/-- The defining property of the order: x <= y iff no Left option of x is
>= y and no Right option of y is <= x. -/
theorem leB_iff {x y : Game} :
    x.leB y = true ↔
    (∀ xl ∈ x.L, ¬ y.leB xl = true) ∧ (∀ yr ∈ y.R, ¬ yr.leB x = true) := by
  rw [Game.leB, Bool.and_eq_true, List.all_eq_true, List.all_eq_true]
  constructor
  · rintro ⟨h1, h2⟩
    constructor
    · intro xl hxl
      have := h1 xl hxl
      rw [isGe_cmp] at this
      simp at this
      simp [this]
    · intro yr hyr
      have := h2 yr hyr
      rw [isGe_cmp] at this
      simp at this
      simp [this]
  · rintro ⟨h1, h2⟩
    constructor
    · intro xl hxl
      rw [isGe_cmp]
      simpa using h1 xl hxl
    · intro yr hyr
      rw [isGe_cmp]
      simpa using h2 yr hyr

theorem leB_false_iff {x y : Game} :
    x.leB y = false ↔
    (∃ xl ∈ x.L, y.leB xl = true) ∨ (∃ yr ∈ y.R, yr.leB x = true) := by
  constructor
  · intro h
    by_contra hcon
    push_neg at hcon
    have h2 : x.leB y = true := leB_iff.2
      ⟨fun xl hxl => by simpa using hcon.1 xl hxl,
       fun yr hyr => by simpa using hcon.2 yr hyr⟩
    rw [h] at h2
    cases h2
  · rintro (⟨xl, hxl, h1⟩ | ⟨yr, hyr, h1⟩)
    · by_contra hcon
      rw [Bool.not_eq_false] at hcon
      exact (leB_iff.1 hcon).1 xl hxl h1
    · by_contra hcon
      rw [Bool.not_eq_false] at hcon
      exact (leB_iff.1 hcon).2 yr hyr h1

/-- The order is reflexive. -/
theorem leB_refl : ∀ x : Game, x.leB x = true := by
  have main : ∀ n, ∀ x : Game, x.size ≤ n → x.leB x = true := by
    intro n
    induction n with
    | zero =>
      intro x h
      have := x.size_pos
      omega
    | succ n ih =>
      intro x h
      rw [leB_iff]
      constructor
      · intro xl hxl hcon
        rw [leB_iff] at hcon
        exact hcon.1 xl hxl (ih xl (by have := size_lt_of_mem_L hxl; omega))
      · intro xr hxr hcon
        rw [leB_iff] at hcon
        exact hcon.2 xr hxr (ih xr (by have := size_lt_of_mem_R hxr; omega))
  intro x
  exact main x.size x le_rfl

/-- No game is <= one of its own Left options. -/
theorem leB_left_option {x xl : Game} (h : xl ∈ x.L) : x.leB xl = false := by
  rw [leB_false_iff]
  exact Or.inl ⟨xl, h, leB_refl xl⟩

/-- No Right option of a game is <= the game it belongs to. -/
theorem right_option_leB {x xr : Game} (h : xr ∈ x.R) : xr.leB x = false := by
  rw [leB_false_iff]
  exact Or.inr ⟨xr, h, leB_refl xr⟩

/-- The order is transitive. -/
theorem leB_trans : ∀ x y z : Game,
    x.leB y = true → y.leB z = true → x.leB z = true := by
  have main : ∀ n, ∀ x y z : Game, x.size + y.size + z.size ≤ n →
      x.leB y = true → y.leB z = true → x.leB z = true := by
    intro n
    induction n using Nat.strong_induction_on with
    | _ n ih =>
      intro x y z hs hxy hyz
      rw [leB_iff]
      constructor
      · intro xl hxl hzxl
        have hxsz := size_lt_of_mem_L hxl
        have hx := x.size_pos
        have h2 : y.leB xl = true :=
          ih (y.size + z.size + xl.size) (by omega) y z xl le_rfl hyz hzxl
        exact (leB_iff.1 hxy).1 xl hxl h2
      · intro zr hzr hzrx
        have hzsz := size_lt_of_mem_R hzr
        have hz := z.size_pos
        have h2 : zr.leB y = true :=
          ih (zr.size + x.size + y.size) (by omega) zr x y le_rfl hzrx hxy
        exact (leB_iff.1 hyz).2 zr hzr h2
  intro x y z
  exact main (x.size + y.size + z.size) x y z le_rfl

theorem scanL_sizeL (x : Game) (qs : List Game) : sizeL (scanL x qs).1 ≤ sizeL qs := by
  induction qs with
  | nil => simp [scanL]
  | cons y ys ih =>
    rw [scanL]
    by_cases h1 : (Game.cmp x y).isGt
    · simp only [h1, if_true]
      have := y.size_pos
      rw [sizeL_cons]
      omega
    · simp only [h1, if_false]
      by_cases h2 : (Game.cmp x y).isLt
      · simp [h2]
      · simp only [h1, h2, Bool.false_eq_true, if_false]
        rw [sizeL_cons, sizeL_cons]
        omega

theorem scanR_sizeL (x : Game) (qs : List Game) : sizeL (scanR x qs).1 ≤ sizeL qs := by
  induction qs with
  | nil => simp [scanR]
  | cons y ys ih =>
    rw [scanR]
    by_cases h1 : (Game.cmp x y).isLt
    · simp only [h1, if_true]
      have := y.size_pos
      rw [sizeL_cons]
      omega
    · simp only [h1, if_false]
      by_cases h2 : (Game.cmp x y).isGt
      · simp [h2]
      · simp only [h1, h2, Bool.false_eq_true, if_false]
        rw [sizeL_cons, sizeL_cons]
        omega

theorem splice_sizeL {x xr : Game} (queue : List Game)
    (hmem : xr ∈ x.R) : sizeL (queue ++ xr.L) < sizeL (x :: queue) := by
  rw [sizeL_append, sizeL_cons]
  have h1 : sizeL xr.L < xr.size := by
    have := xr.size_eq
    omega
  have h2 : xr.size ≤ sizeL x.R := size_le_sizeL hmem
  have h3 := x.size_eq
  omega

theorem leftLoopF_stable :
    ∀ n g arr queue, sizeL queue < n → leftLoopF n g arr queue = leftLoop g arr queue := by
  intro n
  induction n using Nat.strong_induction_on with
  | _ n ih =>
    intro g arr queue hq
    obtain ⟨k, rfl⟩ : ∃ k, n = k + 1 := ⟨n - 1, by omega⟩
    cases queue with
    | nil =>
      rw [leftLoopF, leftLoop, leftLoopF]
    | cons x queue =>
      rw [leftLoopF, leftLoop, leftLoopF]
      cases hf : x.R.find? (fun xr => (Game.cmp xr g).isLe) with
      | some xr =>
        simp only
        have hmem : xr ∈ x.R := List.mem_of_find?_eq_some hf
        have hlt := splice_sizeL queue hmem
        rw [ih k (by omega) g arr (queue ++ xr.L) (by omega)]
        rw [ih (sizeL (x :: queue)) (by omega) g arr (queue ++ xr.L) (by omega)]
      | none =>
        simp only
        have hs := scanL_sizeL x queue
        have hx := x.size_pos
        have hq2 : sizeL (x :: queue) = x.size + sizeL queue := sizeL_cons x queue
        rw [ih k (by omega) g _ (scanL x queue).1 (by omega)]
        rw [ih (sizeL (x :: queue)) (by omega) g _ (scanL x queue).1 (by omega)]

theorem rightLoopF_stable :
    ∀ n g arr queue, sizeL queue < n → rightLoopF n g arr queue = rightLoop g arr queue := by
  intro n
  induction n using Nat.strong_induction_on with
  | _ n ih =>
    intro g arr queue hq
    obtain ⟨k, rfl⟩ : ∃ k, n = k + 1 := ⟨n - 1, by omega⟩
    cases queue with
    | nil =>
      rw [rightLoopF, rightLoop, rightLoopF]
    | cons x queue =>
      rw [rightLoopF, rightLoop, rightLoopF]
      cases hf : x.L.find? (fun xl => (Game.cmp xl g).isGe) with
      | some xl =>
        simp only
        have hmem : xl ∈ x.L := List.mem_of_find?_eq_some hf
        have hlt : sizeL (queue ++ xl.R) < sizeL (x :: queue) := by
          rw [sizeL_append, sizeL_cons]
          have h1 : sizeL xl.R < xl.size := by
            have := xl.size_eq
            omega
          have h2 : xl.size ≤ sizeL x.L := size_le_sizeL hmem
          have h3 := x.size_eq
          omega
        rw [ih k (by omega) g arr (queue ++ xl.R) (by omega)]
        rw [ih (sizeL (x :: queue)) (by omega) g arr (queue ++ xl.R) (by omega)]
      | none =>
        simp only
        have hs := scanR_sizeL x queue
        have hx := x.size_pos
        have hq2 : sizeL (x :: queue) = x.size + sizeL queue := sizeL_cons x queue
        rw [ih k (by omega) g _ (scanR x queue).1 (by omega)]
        rw [ih (sizeL (x :: queue)) (by omega) g _ (scanR x queue).1 (by omega)]

theorem leftLoop_nil (g : Game) (arr : List Game) : leftLoop g arr [] = arr := by
  rw [leftLoop, leftLoopF]

theorem rightLoop_nil (g : Game) (arr : List Game) : rightLoop g arr [] = arr := by
  rw [rightLoop, rightLoopF]

theorem leftLoop_cons_rev {g x xr : Game} (arr queue : List Game)
    (hf : x.R.find? (fun a => (Game.cmp a g).isLe) = some xr) :
    leftLoop g arr (x :: queue) = leftLoop g arr (queue ++ xr.L) := by
  rw [leftLoop, leftLoopF, hf]
  exact leftLoopF_stable _ g arr _ (splice_sizeL queue (List.mem_of_find?_eq_some hf))

theorem leftLoop_cons_scan {g x : Game} (arr queue : List Game)
    (hf : x.R.find? (fun a => (Game.cmp a g).isLe) = none) :
    leftLoop g arr (x :: queue) =
    leftLoop g (if (scanL x queue).2 then arr ++ [x] else arr) (scanL x queue).1 := by
  rw [leftLoop, leftLoopF, hf]
  simp only
  have hs := scanL_sizeL x queue
  have hx := x.size_pos
  have hq2 : sizeL (x :: queue) = x.size + sizeL queue := sizeL_cons x queue
  exact leftLoopF_stable _ g _ _ (by omega)

theorem rightLoop_cons_rev {g x xl : Game} (arr queue : List Game)
    (hf : x.L.find? (fun a => (Game.cmp a g).isGe) = some xl) :
    rightLoop g arr (x :: queue) = rightLoop g arr (queue ++ xl.R) := by
  rw [rightLoop, rightLoopF, hf]
  have hmem : xl ∈ x.L := List.mem_of_find?_eq_some hf
  have hlt : sizeL (queue ++ xl.R) < sizeL (x :: queue) := by
    rw [sizeL_append, sizeL_cons]
    have h1 : sizeL xl.R < xl.size := by
      have := xl.size_eq
      omega
    have h2 : xl.size ≤ sizeL x.L := size_le_sizeL hmem
    have h3 := x.size_eq
    omega
  exact rightLoopF_stable _ g arr _ hlt

theorem rightLoop_cons_scan {g x : Game} (arr queue : List Game)
    (hf : x.L.find? (fun a => (Game.cmp a g).isGe) = none) :
    rightLoop g arr (x :: queue) =
    rightLoop g (if (scanR x queue).2 then arr ++ [x] else arr) (scanR x queue).1 := by
  rw [rightLoop, rightLoopF, hf]
  simp only
  have hs := scanR_sizeL x queue
  have hx := x.size_pos
  have hq2 : sizeL (x :: queue) = x.size + sizeL queue := sizeL_cons x queue
  exact rightLoopF_stable _ g _ _ (by omega)

theorem canonical_nil : canonical [] [] = zeroG := by decide

theorem addF_succ_eq (m : Nat) (x y : Game) (hm : x.size + y.size ≤ m + 1)
    (ihm : ∀ a b : Game, a.size + b.size ≤ m → addF m a b = Game.add a b) :
    addF (m + 1) x y =
    canonical
      ((x.L.map fun xl => Game.add xl y) ++ (y.L.map fun yl => Game.add x yl))
      ((x.R.map fun xr => Game.add xr y) ++ (y.R.map fun yr => Game.add x yr)) := by
  rw [addF]
  have e1 : (x.L.map fun xl => addF m xl y) = x.L.map fun xl => Game.add xl y :=
    List.map_congr_left fun a ha => ihm a y (by have := size_lt_of_mem_L ha; omega)
  have e2 : (y.L.map fun yl => addF m x yl) = y.L.map fun yl => Game.add x yl :=
    List.map_congr_left fun a ha => ihm x a (by have := size_lt_of_mem_L ha; omega)
  have e3 : (x.R.map fun xr => addF m xr y) = x.R.map fun xr => Game.add xr y :=
    List.map_congr_left fun a ha => ihm a y (by have := size_lt_of_mem_R ha; omega)
  have e4 : (y.R.map fun yr => addF m x yr) = y.R.map fun yr => Game.add x yr :=
    List.map_congr_left fun a ha => ihm x a (by have := size_lt_of_mem_R ha; omega)
  rw [e1, e2, e3, e4]

theorem addF_stable :
    ∀ n x y, x.size + y.size ≤ n → addF n x y = Game.add x y := by
  intro n
  induction n using Nat.strong_induction_on with
  | _ n ih =>
    intro x y h
    have hx := x.size_pos
    have hy := y.size_pos
    obtain ⟨k, rfl⟩ : ∃ k, n = k + 1 := ⟨n - 1, by omega⟩
    by_cases heq : x.size + y.size = k + 1
    · rw [Game.add, heq]
    · obtain ⟨m, hm⟩ : ∃ m, x.size + y.size = m + 1 := ⟨x.size + y.size - 1, by omega⟩
      rw [addF_succ_eq k x y (by omega) (fun a b hab => ih k (by omega) a b hab)]
      have h2 : Game.add x y = addF (m + 1) x y := by rw [Game.add, hm]
      rw [h2, addF_succ_eq m x y (by omega) (fun a b hab => ih m (by omega) a b hab)]

theorem add_unfold (x y : Game) :
    Game.add x y =
    canonical
      ((x.L.map fun xl => Game.add xl y) ++ (y.L.map fun yl => Game.add x yl))
      ((x.R.map fun xr => Game.add xr y) ++ (y.R.map fun yr => Game.add x yr)) := by
  have hx := x.size_pos
  have hy := y.size_pos
  obtain ⟨m, hm⟩ : ∃ m, x.size + y.size = m + 1 := ⟨x.size + y.size - 1, by omega⟩
  have h2 : Game.add x y = addF (m + 1) x y := by rw [Game.add, hm]
  rw [h2, addF_succ_eq m x y (by omega) (fun a b hab => addF_stable m a b hab)]

theorem negF_stable :
    ∀ n x, x.size ≤ n → negF n x = Game.neg x := by
  intro n
  induction n using Nat.strong_induction_on with
  | _ n ih =>
    intro x h
    have hx := x.size_pos
    obtain ⟨k, rfl⟩ : ∃ k, n = k + 1 := ⟨n - 1, by omega⟩
    by_cases heq : x.size = k + 1
    · rw [Game.neg, heq]
    · obtain ⟨m, hm⟩ : ∃ m, x.size = m + 1 := ⟨x.size - 1, by omega⟩
      have unf : ∀ j, x.size ≤ j + 1 → (∀ a : Game, a.size ≤ j → negF j a = Game.neg a) →
          negF (j + 1) x = canonical (x.R.map Game.neg) (x.L.map Game.neg) := by
        intro j hj ihj
        rw [negF]
        rw [List.map_congr_left fun a ha => ihj a (by have := size_lt_of_mem_R ha; omega)]
        rw [List.map_congr_left fun a ha => ihj a (by have := size_lt_of_mem_L ha; omega)]
      rw [unf k (by omega) (fun a hab => ih k (by omega) a hab)]
      have h2 : Game.neg x = negF (m + 1) x := by rw [Game.neg, hm]
      rw [h2, unf m (by omega) (fun a hab => ih m (by omega) a hab)]

theorem neg_unfold (x : Game) :
    Game.neg x = canonical (x.R.map Game.neg) (x.L.map Game.neg) := by
  have hx := x.size_pos
  obtain ⟨m, hm⟩ : ∃ m, x.size = m + 1 := ⟨x.size - 1, by omega⟩
  have h2 : Game.neg x = negF (m + 1) x := by rw [Game.neg, hm]
  rw [h2, negF]
  rw [List.map_congr_left fun a ha =>
    negF_stable m a (by have := size_lt_of_mem_R ha; omega)]
  rw [List.map_congr_left fun a ha =>
    negF_stable m a (by have := size_lt_of_mem_L ha; omega)]

theorem depthF_stable :
    ∀ n g, g.size ≤ n → depthF n g = Game.depth g := by
  intro n
  induction n using Nat.strong_induction_on with
  | _ n ih =>
    intro g h
    have hg := g.size_pos
    obtain ⟨k, rfl⟩ : ∃ k, n = k + 1 := ⟨n - 1, by omega⟩
    by_cases heq : g.size = k + 1
    · rw [Game.depth, heq]
    · obtain ⟨m, hm⟩ : ∃ m, g.size = m + 1 := ⟨g.size - 1, by omega⟩
      have unf : ∀ j, g.size ≤ j + 1 → (∀ a : Game, a.size ≤ j → depthF j a = Game.depth a) →
          depthF (j + 1) g =
          (if g = zeroG then 0 else ((g.L ++ g.R).map Game.depth).foldr max 0 + 1) := by
        intro j hj ihj
        rw [depthF]
        congr 1
        congr 1
        congr 1
        apply List.map_congr_left
        intro a ha
        rcases List.mem_append.1 ha with ha1 | ha1
        · exact ihj a (by have := size_lt_of_mem_L ha1; omega)
        · exact ihj a (by have := size_lt_of_mem_R ha1; omega)
      rw [unf k (by omega) (fun a hab => ih k (by omega) a hab)]
      have h2 : Game.depth g = depthF (m + 1) g := by rw [Game.depth, hm]
      rw [h2, unf m (by omega) (fun a hab => ih m (by omega) a hab)]

theorem depth_unfold (g : Game) :
    Game.depth g =
    (if g = zeroG then 0 else ((g.L ++ g.R).map Game.depth).foldr max 0 + 1) := by
  have hg := g.size_pos
  obtain ⟨m, hm⟩ : ∃ m, g.size = m + 1 := ⟨g.size - 1, by omega⟩
  have h2 : Game.depth g = depthF (m + 1) g := by rw [Game.depth, hm]
  rw [h2, depthF]
  congr 1
  congr 1
  congr 1
  apply List.map_congr_left
  intro a ha
  rcases List.mem_append.1 ha with ha1 | ha1
  · exact depthF_stable m a (by have := size_lt_of_mem_L ha1; omega)
  · exact depthF_stable m a (by have := size_lt_of_mem_R ha1; omega)

theorem nimberF_stable :
    ∀ f n, n < f → nimberF f n = nimber n := by
  intro f
  induction f using Nat.strong_induction_on with
  | _ f ih =>
    intro n h
    obtain ⟨k, rfl⟩ : ∃ k, f = k + 1 := ⟨f - 1, by omega⟩
    by_cases heq : n = k
    · rw [nimber, heq]
    · have unf : ∀ j, n ≤ j → (∀ a, a < j → nimberF j a = nimber a) →
          nimberF (j + 1) n =
          canonical ((List.range n).map nimber) ((List.range n).map nimber) := by
        intro j hj ihj
        rw [nimberF]
        rw [List.map_congr_left fun a ha => ihj a (by
          have := List.mem_range.1 ha
          omega)]
      rw [unf k (by omega) (fun a hab => ih k (by omega) a hab)]
      have h2 : nimber n = nimberF (n + 1) n := rfl
      rw [h2, unf n le_rfl (fun a hab => ih n (by omega) a hab)]

theorem nimber_unfold (n : Nat) :
    nimber n = canonical ((List.range n).map nimber) ((List.range n).map nimber) := by
  have h2 : nimber n = nimberF (n + 1) n := rfl
  rw [h2, nimberF]
  rw [List.map_congr_left fun a ha => nimberF_stable n a (List.mem_range.1 ha)]

theorem isGe_iff_not {c : CmpRes} : c.isGe = false ↔ c ≠ CmpRes.gt ∧ c ≠ CmpRes.eq := by
  cases c <;> simp [CmpRes.isGe]

theorem specLeRule_iff_leB {x y : Game} : specLeRule x y ↔ x.leB y = true := by
  rw [specLeRule, leB_iff]
  constructor
  · rintro ⟨h1, h2⟩
    constructor
    · intro xl hxl
      have := isGe_iff_not.2 (h1 xl hxl)
      rw [isGe_cmp] at this
      simp [this]
    · intro yr hyr
      have := isGe_iff_not.2 (h2 yr hyr)
      rw [isGe_cmp] at this
      simp [this]
  · rintro ⟨h1, h2⟩
    constructor
    · intro xl hxl
      apply isGe_iff_not.1
      rw [isGe_cmp]
      simpa using h1 xl hxl
    · intro yr hyr
      apply isGe_iff_not.1
      rw [isGe_cmp]
      simpa using h2 yr hyr

/-- C1: `compare(x, y)` returns exactly one of the four outcomes, and is
computed by the mutually recursive rule: `x <= y` holds iff every Left
option `xl` of `x` has `compare(xl,y)` outside {GREATER, EQUAL} and every
Right option `yr` of `y` has `compare(x,yr)` outside {GREATER, EQUAL};
`y <= x` symmetrically; the result is EQUAL when both hold, LESS when only
`x <= y` holds, GREATER when only `y <= x` holds, INCOMPARABLE otherwise. -/
theorem c1_cmp_rule (x y : Game) :
    (Game.cmp x y = CmpRes.lt ∨ Game.cmp x y = CmpRes.eq ∨
     Game.cmp x y = CmpRes.gt ∨ Game.cmp x y = CmpRes.fz) ∧
    (Game.cmp x y = CmpRes.eq ↔ specLeRule x y ∧ specLeRule y x) ∧
    (Game.cmp x y = CmpRes.lt ↔ specLeRule x y ∧ ¬ specLeRule y x) ∧
    (Game.cmp x y = CmpRes.gt ↔ ¬ specLeRule x y ∧ specLeRule y x) ∧
    (Game.cmp x y = CmpRes.fz ↔ ¬ specLeRule x y ∧ ¬ specLeRule y x) := by
  have hxy := @specLeRule_iff_leB x y
  have hyx := @specLeRule_iff_leB y x
  refine ⟨?_, ?_, ?_, ?_, ?_⟩
  · cases h : Game.cmp x y
    · exact Or.inl rfl
    · exact Or.inr (Or.inl rfl)
    · exact Or.inr (Or.inr (Or.inl rfl))
    · exact Or.inr (Or.inr (Or.inr rfl))
  · rw [cmp_eq_eq_iff, hxy, hyx]
  · rw [cmp_eq_lt_iff, hxy, hyx]
    simp
  · rw [cmp_eq_gt_iff, hxy, hyx]
    simp
  · rw [cmp_eq_fz_iff, hxy, hyx]
    simp

/-- C2: the claim that every constructed instance is canonical fails.
Evaluating the public two-argument constructor at
`Game([1, Game([1],[star])], [2])` produces the instance `{0,1|2}`, whose
Left set retains the option `0` dominated by the distinct Left option `1`
(here `compare(1,0)` is in {GREATER, EQUAL}). -/
theorem c2_code_bug :
    fromPair (PyList.ofList [PyVal.num ⟨1, 1⟩, PyVal.game xRevG])
      (PyList.ofList [PyVal.num ⟨2, 1⟩]) = Except.ok bugG ∧
    zeroG ∈ bugG.L ∧ oneG ∈ bugG.L ∧ zeroG ≠ oneG ∧
    (Game.cmp oneG zeroG).isGe = true := by decide

/-- C3: the claim that instance identity coincides with order-equality
fails: the two public constructions `Game([1, Game([1],[star])], [2])` and
`Game(3/2)` produce order-equal (`compare` = EQUAL) but structurally
distinct instances `{0,1|2}` and `{1|2}`. -/
theorem c3_code_bug :
    fromPair (PyList.ofList [PyVal.num ⟨1, 1⟩, PyVal.game xRevG])
      (PyList.ofList [PyVal.num ⟨2, 1⟩]) = Except.ok bugG ∧
    fromValue (PyVal.num ⟨3, 2⟩) = Except.ok threeHalvesG ∧
    Game.cmp bugG threeHalvesG = CmpRes.eq ∧ bugG ≠ threeHalvesG := by decide

/-- C4: the claim `x + zero == x` (same instance) fails at the constructed
game `{0,1|2}`: adding `zero` re-canonicalizes the option sets and
returns the distinct instance `{1|2}` (which is order-equal to `x`). -/
theorem c4_code_bug :
    Game.add bugG zeroG ≠ bugG ∧
    Game.add bugG zeroG = threeHalvesG ∧
    Game.cmp (Game.add bugG zeroG) bugG = CmpRes.eq := by decide

/-- C5: when `compare(x,y)` is INCOMPARABLE all four relational operators
return false; in particular `star` against `zero` is INCOMPARABLE and all
four operators between them return false. -/
theorem c5_incomparable (x y : Game) (h : Game.cmp x y = CmpRes.fz) :
    Game.ltOp x y = false ∧ Game.gtOp x y = false ∧
    Game.leOp x y = false ∧ Game.geOp x y = false ∧
    Game.cmp starG zeroG = CmpRes.fz ∧
    Game.ltOp starG zeroG = false ∧ Game.gtOp starG zeroG = false ∧
    Game.leOp starG zeroG = false ∧ Game.geOp starG zeroG = false := by
  refine ⟨?_, ?_, ?_, ?_, by decide, by decide, by decide, by decide, by decide⟩
  · rw [Game.ltOp, h]; rfl
  · rw [Game.gtOp, h]; rfl
  · rw [Game.leOp, h]; rfl
  · rw [Game.geOp, h]; rfl

/-- Witness for C5 at the concrete pair (star, zero). -/
theorem c5_witness :
    Game.cmp starG zeroG = CmpRes.fz ∧ Game.ltOp starG zeroG = false :=
  ⟨by decide, (c5_incomparable starG zeroG (by decide)).1⟩

/-- C6: the claim `len(Game(2)) == 3` fails on the code: `Game(2)` is the
nested singleton `{{{|}|}|}` whose depth (birthday) is 2, not 3. -/
theorem c6_counterexample :
    fromValue (PyVal.num ⟨2, 1⟩) = Except.ok twoG ∧
    Game.depth twoG = 2 ∧ Game.depth twoG ≠ 3 := by decide

/-- C6 (amended): numeric construction by bisection produces nested
singleton option sets: `Game(2)` is `{{{|}|}|}` with `len(Game(2)) == 2`,
and `Game(Fraction(1,4))` is `{0|{0|1}}` with depth 3. -/
theorem c6_amended :
    fromValue (PyVal.num ⟨2, 1⟩) = Except.ok twoG ∧
    twoG = gmk [gmk [gmk [] []] []] [] ∧
    Game.depth twoG = 2 ∧
    fromValue (PyVal.num ⟨1, 4⟩) = Except.ok quarterG ∧
    Game.depth quarterG = 3 := by decide

/-- C7: `Game(Fraction(1,3))` (and generally any rational whose denominator
is not a power of two), and any non-iterable non-numeric single argument,
raise a domain error synchronously at construction; the error propagates
(is never recovered) through the operand coercion of arithmetic; and
comparison and arithmetic applied to well-formed `Game` operands never
produce an error. -/
theorem c7_errors :
    fromValue (PyVal.num ⟨1, 3⟩) = Except.error "The number is not a dyadic rational." ∧
    fromValue PyVal.other = Except.error "Wrong arguments." ∧
    (∀ q : PyRat, isPowOfTwo q.den = false →
      fromValue (PyVal.num q) = Except.error "The number is not a dyadic rational.") ∧
    (∀ x : Game, ∀ q : PyRat, isPowOfTwo q.den = false →
      addOp x (PyVal.num q) = Except.error "The number is not a dyadic rational.") ∧
    (∀ x y : Game, addOp x (PyVal.game y) = Except.ok (Game.add x y)) ∧
    (∀ x y : Game, ltPyOp x (PyVal.game y) = Except.ok (Game.ltOp x y)) := by
  refine ⟨by decide, rfl, ?_, ?_, ?_, ?_⟩
  · intro q hq
    rw [fromValue, hq]
    rfl
  · intro x q hq
    rw [addOp, fromValue, hq]
    rfl
  · intro x y
    rfl
  · intro x y
    rfl

/-- Witness for C7 at the concrete non-dyadic rational 1/3 and game star. -/
theorem c7_witness :
    isPowOfTwo (PyRat.den ⟨1, 3⟩) = false ∧
    addOp starG (PyVal.num ⟨1, 3⟩) = Except.error "The number is not a dyadic rational." :=
  ⟨by decide, c7_errors.2.2.2.1 starG ⟨1, 3⟩ (by decide)⟩

/-- C10: the comparison is reflexive: `compare(x,x)` is EQUAL for every
game, hence `x <= x` and `x >= x` are true and `x < x` and `x > x` are
false. -/
theorem c10_cmp_refl (x : Game) :
    Game.cmp x x = CmpRes.eq ∧ Game.leOp x x = true ∧ Game.geOp x x = true ∧
    Game.ltOp x x = false ∧ Game.gtOp x x = false := by
  have h : Game.cmp x x = CmpRes.eq := cmp_eq_eq_iff.2 ⟨leB_refl x, leB_refl x⟩
  refine ⟨h, ?_, ?_, ?_, ?_⟩
  · rw [Game.leOp, h]; rfl
  · rw [Game.geOp, h]; rfl
  · rw [Game.ltOp, h]; rfl
  · rw [Game.gtOp, h]; rfl

theorem zeroG_L : zeroG.L = [] := gmk_L [] []

theorem zeroG_R : zeroG.R = [] := gmk_R [] []

theorem cmp_zeroG_zeroG : Game.cmp zeroG zeroG = CmpRes.eq :=
  cmp_eq_eq_iff.2 ⟨leB_refl zeroG, leB_refl zeroG⟩

/-- A game with no reversible options that is order-equal to zero is the
zero instance itself: a nonempty option set would yield a reversible
option through zero. -/
theorem eq_zeroG_of_cmp_eq {g : Game}
    (hLrev : ∀ x ∈ g.L, ∀ xr ∈ x.R, (Game.cmp xr g).isLe = false)
    (hRrev : ∀ x ∈ g.R, ∀ xl ∈ x.L, (Game.cmp xl g).isGe = false)
    (h : Game.cmp g zeroG = CmpRes.eq) : g = zeroG := by
  obtain ⟨h1, h2⟩ := cmp_eq_eq_iff.1 h
  have hL : g.L = [] := by
    cases hgl : g.L with
    | nil => rfl
    | cons a as =>
      exfalso
      have ha : a ∈ g.L := by rw [hgl]; exact List.mem_cons_self a as
      have h3 : zeroG.leB a = false := by
        have := (leB_iff.1 h1).1 a ha
        simpa using this
      rcases leB_false_iff.1 h3 with ⟨l, hl, _⟩ | ⟨yr, hyr, h4⟩
      · rw [zeroG_L] at hl
        cases hl
      · have h5 : yr.leB g = true := leB_trans yr zeroG g h4 h2
        have h6 := hLrev a ha yr hyr
        rw [isLe_cmp, h5] at h6
        cases h6
  have hR : g.R = [] := by
    cases hgr : g.R with
    | nil => rfl
    | cons a as =>
      exfalso
      have ha : a ∈ g.R := by rw [hgr]; exact List.mem_cons_self a as
      have h3 : a.leB zeroG = false := by
        have := (leB_iff.1 h2).2 a ha
        simpa using this
      rcases leB_false_iff.1 h3 with ⟨xl, hxl, h4⟩ | ⟨yr, hyr, _⟩
      · have h5 : g.leB xl = true := leB_trans g zeroG xl h1 h4
        have h6 := hRrev a ha xl hxl
        rw [isGe_cmp, h5] at h6
        cases h6
      · rw [zeroG_R] at hyr
        cases hyr
  have he := Game.eta g
  rw [hL, hR] at he
  exact he.symm

/-- C8: for a canonical game g (no dominated and no reversible options on
either side), depth(g) is 0 when compare(g, zero) is EQUAL, and otherwise
1 + the maximum of depth(s) over the options s in g.L ++ g.R; this is the
value the public `len` returns (`Game.depth` embeds `_depth`/`__len__`). -/
theorem c8_depth_rule (g : Game)
    (_hLdom : ∀ x ∈ g.L, ∀ y ∈ g.L, x ≠ y → (Game.cmp x y).isGe = false)
    (_hRdom : ∀ x ∈ g.R, ∀ y ∈ g.R, x ≠ y → (Game.cmp x y).isLe = false)
    (hLrev : ∀ x ∈ g.L, ∀ xr ∈ x.R, (Game.cmp xr g).isLe = false)
    (hRrev : ∀ x ∈ g.R, ∀ xl ∈ x.L, (Game.cmp xl g).isGe = false) :
    (Game.cmp g zeroG = CmpRes.eq → Game.depth g = 0) ∧
    (Game.cmp g zeroG ≠ CmpRes.eq →
      Game.depth g = ((g.L ++ g.R).map Game.depth).foldr max 0 + 1) := by
  constructor
  · intro h
    have hz : g = zeroG := eq_zeroG_of_cmp_eq hLrev hRrev h
    rw [depth_unfold, if_pos hz]
  · intro h
    have hz : g ≠ zeroG := by
      intro hc
      rw [hc] at h
      exact h cmp_zeroG_zeroG
    rw [depth_unfold, if_neg hz]

/-- Witness for C8 at the concrete canonical game star. -/
theorem c8_witness :
    ((∀ x ∈ starG.L, ∀ y ∈ starG.L, x ≠ y → (Game.cmp x y).isGe = false) ∧
     (∀ x ∈ starG.R, ∀ y ∈ starG.R, x ≠ y → (Game.cmp x y).isLe = false) ∧
     (∀ x ∈ starG.L, ∀ xr ∈ x.R, (Game.cmp xr starG).isLe = false) ∧
     (∀ x ∈ starG.R, ∀ xl ∈ x.L, (Game.cmp xl starG).isGe = false)) ∧
    Game.cmp starG zeroG ≠ CmpRes.eq ∧
    Game.depth starG = ((starG.L ++ starG.R).map Game.depth).foldr max 0 + 1 :=
  ⟨⟨by decide, by decide, by decide, by decide⟩, by decide,
   (c8_depth_rule starG (by decide) (by decide) (by decide) (by decide)).2 (by decide)⟩

theorem nimS_def (n : Nat) : nimS n = gmk (nimSL n) (nimSL n) := by
  rw [nimS, nimSL, List.attach_map_val]

theorem nimS_L (n : Nat) : (nimS n).L = nimSL n := by rw [nimS_def, gmk_L]

theorem nimS_R (n : Nat) : (nimS n).R = nimSL n := by rw [nimS_def, gmk_R]

theorem mem_nimSL {a : Game} {n : Nat} : a ∈ nimSL n ↔ ∃ i < n, a = nimS i := by
  rw [nimSL, mem_sortDedup]
  constructor
  · intro h
    rcases List.mem_map.1 h with ⟨i, hi, rfl⟩
    exact ⟨i, List.mem_range.1 hi, rfl⟩
  · rintro ⟨i, hi, rfl⟩
    exact List.mem_map.2 ⟨i, List.mem_range.2 hi, rfl⟩

/-- Distinct nimbers are never <=-comparable; equal ones are equal. -/
theorem leB_nimS : ∀ a b : Nat, ((nimS a).leB (nimS b) = true ↔ a = b) := by
  have main : ∀ n a b, a + b ≤ n → ((nimS a).leB (nimS b) = true ↔ a = b) := by
    intro n
    induction n using Nat.strong_induction_on with
    | _ n ih =>
      intro a b hab
      rw [leB_iff, nimS_L, nimS_R]
      constructor
      · intro ⟨h1, h2⟩
        by_contra hne
        rcases Nat.lt_or_ge a b with hlt | hge
        · -- a < b: then nimS a is a Right option of nimS b and (nimS a).leB (nimS a)
          exact h2 (nimS a) (mem_nimSL.2 ⟨a, hlt, rfl⟩) (leB_refl (nimS a))
        · have hlt : b < a := by omega
          exact h1 (nimS b) (mem_nimSL.2 ⟨b, hlt, rfl⟩) (leB_refl (nimS b))
      · rintro rfl
        constructor
        · intro xl hxl
          rcases mem_nimSL.1 hxl with ⟨i, hi, rfl⟩
          intro hcon
          have := (ih (a + i) (by omega) a i le_rfl).1 hcon
          omega
        · intro yr hyr
          rcases mem_nimSL.1 hyr with ⟨j, hj, rfl⟩
          intro hcon
          have := (ih (j + a) (by omega) j a le_rfl).1 hcon
          omega
  intro a b
  exact main (a + b) a b le_rfl

theorem nimS_inj {i j : Nat} (h : nimS i = nimS j) : i = j := by
  have : (nimS i).leB (nimS j) = true := by rw [h]; exact leB_refl (nimS j)
  exact (leB_nimS i j).1 this

theorem cmp_nimS_eq {i j : Nat} (h : i = j) : Game.cmp (nimS i) (nimS j) = CmpRes.eq := by
  subst h
  exact cmp_eq_eq_iff.2 ⟨leB_refl _, leB_refl _⟩

theorem cmp_nimS_fz {i j : Nat} (h : i ≠ j) : Game.cmp (nimS i) (nimS j) = CmpRes.fz := by
  apply cmp_eq_fz_iff.2
  constructor
  · rw [← Bool.not_eq_true]
    intro hc
    exact h ((leB_nimS i j).1 hc)
  · rw [← Bool.not_eq_true]
    intro hc
    exact h ((leB_nimS j i).1 hc).symm

theorem cmp_nimS_not_strict (i j : Nat) :
    (Game.cmp (nimS i) (nimS j)).isGt = false ∧ (Game.cmp (nimS i) (nimS j)).isLt = false := by
  by_cases h : i = j
  · rw [cmp_nimS_eq h]
    exact ⟨rfl, rfl⟩
  · rw [cmp_nimS_fz h]
    exact ⟨rfl, rfl⟩

/-- Comparison of a nimber against an impartial game `{B|B}` whose options
are the nimbers of the value set `Sl`, when `Sl` contains everything below
`k` but not `k` itself (so the game has value `*k`): the only nimber that
is <= it, or >= it, is `nimS k`. -/
theorem leB_nimS_gmkB {Sl : List Nat} {k : Nat} {B : List Game}
    (hmemB : ∀ y, y ∈ B ↔ ∃ s ∈ Sl, y = nimS s)
    (hcov : ∀ t, t < k → t ∈ Sl) (hk : k ∉ Sl) :
    ∀ t, ((nimS t).leB (gmk B B) = true ↔ t = k) ∧
         ((gmk B B).leB (nimS t) = true ↔ t = k) := by
  intro t
  induction t using Nat.strong_induction_on with
  | _ t ih =>
    constructor
    · rw [leB_iff, nimS_L, gmk_R]
      constructor
      · rintro ⟨h1, h2⟩
        by_contra hne
        rcases Nat.lt_trichotomy t k with hlt | heq | hgt
        · exact h2 (nimS t) ((hmemB _).2 ⟨t, hcov t hlt, rfl⟩) (leB_refl _)
        · exact hne heq
        · exact h1 (nimS k) (mem_nimSL.2 ⟨k, hgt, rfl⟩) ((ih k hgt).2.mpr rfl)
      · rintro rfl
        constructor
        · intro xl hxl
          rcases mem_nimSL.1 hxl with ⟨i, hik, rfl⟩
          intro hcon
          exact absurd ((ih i hik).2.1 hcon) (by omega)
        · intro yr hyr
          rcases (hmemB _).1 hyr with ⟨s, hs, rfl⟩
          intro hcon
          exact hk (((leB_nimS s t).1 hcon) ▸ hs)
    · rw [leB_iff, gmk_L, nimS_R]
      constructor
      · rintro ⟨h1, h2⟩
        by_contra hne
        rcases Nat.lt_trichotomy t k with hlt | heq | hgt
        · exact h1 (nimS t) ((hmemB _).2 ⟨t, hcov t hlt, rfl⟩) (leB_refl _)
        · exact hne heq
        · exact h2 (nimS k) (mem_nimSL.2 ⟨k, hgt, rfl⟩) ((ih k hgt).1.mpr rfl)
      · rintro rfl
        constructor
        · intro xl hxl
          rcases (hmemB _).1 hxl with ⟨s, hs, rfl⟩
          intro hcon
          exact hk (((leB_nimS t s).1 hcon).symm ▸ hs)
        · intro yr hyr
          rcases mem_nimSL.1 hyr with ⟨j, hjk, rfl⟩
          intro hcon
          exact absurd ((ih j hjk).1.1 hcon) (by omega)

theorem find?_unique {p : Game → Bool} {l : List Game} {c : Game}
    (hc : c ∈ l) (hpc : p c = true) (huniq : ∀ a ∈ l, p a = true → a = c) :
    l.find? p = some c := by
  induction l with
  | nil => cases hc
  | cons b bs ih =>
    by_cases hb : p b = true
    · rw [List.find?_cons_of_pos _ hb, huniq b (List.mem_cons_self b bs) hb]
    · rw [List.find?_cons_of_neg _ hb]
      rcases List.mem_cons.1 hc with rfl | hc2
      · exact absurd hpc hb
      · exact ih hc2 fun a ha hpa => huniq a (List.mem_cons_of_mem b ha) hpa

theorem nim_findL_none {Sl : List Nat} {k : Nat} {B : List Game}
    (hmemB : ∀ y, y ∈ B ↔ ∃ s ∈ Sl, y = nimS s)
    (hcov : ∀ t, t < k → t ∈ Sl) (hk : k ∉ Sl) {m : Nat} (hmk : m ≤ k) :
    (nimS m).R.find? (fun xr => (Game.cmp xr (gmk B B)).isLe) = none := by
  rw [List.find?_eq_none]
  intro x hx
  rw [nimS_R] at hx
  rcases mem_nimSL.1 hx with ⟨i, him, rfl⟩
  rw [isLe_cmp]
  intro hcon
  have := ((leB_nimS_gmkB hmemB hcov hk) i).1.1 hcon
  omega

theorem nim_findL_some {Sl : List Nat} {k : Nat} {B : List Game}
    (hmemB : ∀ y, y ∈ B ↔ ∃ s ∈ Sl, y = nimS s)
    (hcov : ∀ t, t < k → t ∈ Sl) (hk : k ∉ Sl) {m : Nat} (hmk : k < m) :
    (nimS m).R.find? (fun xr => (Game.cmp xr (gmk B B)).isLe) = some (nimS k) := by
  apply find?_unique
  · rw [nimS_R]
    exact mem_nimSL.2 ⟨k, hmk, rfl⟩
  · rw [isLe_cmp]
    exact ((leB_nimS_gmkB hmemB hcov hk) k).1.mpr rfl
  · intro a ha hpa
    rw [nimS_R] at ha
    rcases mem_nimSL.1 ha with ⟨i, him, rfl⟩
    rw [isLe_cmp] at hpa
    rw [((leB_nimS_gmkB hmemB hcov hk) i).1.1 hpa]

theorem nim_findR_none {Sl : List Nat} {k : Nat} {B : List Game}
    (hmemB : ∀ y, y ∈ B ↔ ∃ s ∈ Sl, y = nimS s)
    (hcov : ∀ t, t < k → t ∈ Sl) (hk : k ∉ Sl) {m : Nat} (hmk : m ≤ k) :
    (nimS m).L.find? (fun xl => (Game.cmp xl (gmk B B)).isGe) = none := by
  rw [List.find?_eq_none]
  intro x hx
  rw [nimS_L] at hx
  rcases mem_nimSL.1 hx with ⟨i, him, rfl⟩
  rw [isGe_cmp]
  intro hcon
  have := ((leB_nimS_gmkB hmemB hcov hk) i).2.1 hcon
  omega

theorem nim_findR_some {Sl : List Nat} {k : Nat} {B : List Game}
    (hmemB : ∀ y, y ∈ B ↔ ∃ s ∈ Sl, y = nimS s)
    (hcov : ∀ t, t < k → t ∈ Sl) (hk : k ∉ Sl) {m : Nat} (hmk : k < m) :
    (nimS m).L.find? (fun xl => (Game.cmp xl (gmk B B)).isGe) = some (nimS k) := by
  apply find?_unique
  · rw [nimS_L]
    exact mem_nimSL.2 ⟨k, hmk, rfl⟩
  · rw [isGe_cmp]
    exact ((leB_nimS_gmkB hmemB hcov hk) k).2.mpr rfl
  · intro a ha hpa
    rw [nimS_L] at ha
    rcases mem_nimSL.1 ha with ⟨i, him, rfl⟩
    rw [isGe_cmp] at hpa
    rw [((leB_nimS_gmkB hmemB hcov hk) i).2.1 hpa]

theorem scanL_no_change {x : Game} : ∀ {qs : List Game},
    (∀ y ∈ qs, (Game.cmp x y).isGt = false ∧ (Game.cmp x y).isLt = false) →
    scanL x qs = (qs, true) := by
  intro qs
  induction qs with
  | nil => intro _; rfl
  | cons y ys ih =>
    intro h
    have hy := h y (List.mem_cons_self y ys)
    rw [scanL, hy.1, hy.2]
    simp only [Bool.false_eq_true, if_false]
    rw [ih fun a ha => h a (List.mem_cons_of_mem y ha)]

theorem scanR_no_change {x : Game} : ∀ {qs : List Game},
    (∀ y ∈ qs, (Game.cmp x y).isGt = false ∧ (Game.cmp x y).isLt = false) →
    scanR x qs = (qs, true) := by
  intro qs
  induction qs with
  | nil => intro _; rfl
  | cons y ys ih =>
    intro h
    have hy := h y (List.mem_cons_self y ys)
    rw [scanR, hy.1, hy.2]
    simp only [Bool.false_eq_true, if_false]
    rw [ih fun a ha => h a (List.mem_cons_of_mem y ha)]

/-- Running the Left reduction loop on a queue of nimbers whose values are
either in the candidate value set `Sl` or below the target `k`: the
survivors are exactly the accepted list plus the nimbers below `k`
(present in the queue or spliced in from a reversible nimber above `k`). -/
theorem leftLoop_nim_mem {Sl : List Nat} {k : Nat} {B : List Game}
    (hmemB : ∀ y, y ∈ B ↔ ∃ s ∈ Sl, y = nimS s)
    (hcov : ∀ t, t < k → t ∈ Sl) (hk : k ∉ Sl) :
    ∀ n queue arr, sizeL queue ≤ n →
    (∀ y ∈ queue, ∃ s, y = nimS s ∧ (s ∈ Sl ∨ s < k)) →
    ∀ z, z ∈ leftLoop (gmk B B) arr queue ↔
      z ∈ arr ∨ ((∃ t, t < k ∧ z = nimS t) ∧
        (z ∈ queue ∨ ∃ s ∈ Sl, k < s ∧ nimS s ∈ queue)) := by
  intro n
  induction n using Nat.strong_induction_on with
  | _ n ih =>
    intro queue arr hsz hq z
    cases queue with
    | nil =>
      rw [leftLoop_nil]
      simp
    | cons x rest =>
      rcases hq x (List.mem_cons_self x rest) with ⟨m, rfl, hm⟩
      have hrest : ∀ y ∈ rest, ∃ s, y = nimS s ∧ (s ∈ Sl ∨ s < k) :=
        fun y hy => hq y (List.mem_cons_of_mem _ hy)
      have hmne : m ≠ k := by
        rcases hm with hm | hm
        · intro hc; exact hk (hc ▸ hm)
        · omega
      rcases Nat.lt_or_ge m k with hmk | hmk2
      · have hscan : scanL (nimS m) rest = (rest, true) := by
          apply scanL_no_change
          intro y hy
          rcases hrest y hy with ⟨s, rfl, _⟩
          exact cmp_nimS_not_strict m s
        have hif : (if (scanL (nimS m) rest).2 then arr ++ [nimS m] else arr) =
            arr ++ [nimS m] := by rw [hscan]; rfl
        have hfst : (scanL (nimS m) rest).1 = rest := by rw [hscan]
        rw [leftLoop_cons_scan _ _ (nim_findL_none hmemB hcov hk (le_of_lt hmk)),
          hif, hfst]
        have hsz2 : sizeL rest < n := by
          have := (nimS m).size_pos
          rw [sizeL_cons] at hsz
          omega
        rw [ih (sizeL rest) hsz2 rest (arr ++ [nimS m]) le_rfl hrest z]
        constructor
        · rintro (hz | ⟨⟨t, htk, rfl⟩, hq2⟩)
          · rcases List.mem_append.1 hz with hz | hz
            · exact Or.inl hz
            · rw [List.mem_singleton] at hz
              subst hz
              exact Or.inr ⟨⟨m, hmk, rfl⟩, Or.inl (List.mem_cons_self _ _)⟩
          · refine Or.inr ⟨⟨t, htk, rfl⟩, ?_⟩
            rcases hq2 with hz | ⟨s, hs, hks, hmem2⟩
            · exact Or.inl (List.mem_cons_of_mem _ hz)
            · exact Or.inr ⟨s, hs, hks, List.mem_cons_of_mem _ hmem2⟩
        · rintro (hz | ⟨⟨t, htk, rfl⟩, hq2⟩)
          · exact Or.inl (List.mem_append.2 (Or.inl hz))
          · rcases hq2 with hz | ⟨s, hs, hks, hmem2⟩
            · rcases List.mem_cons.1 hz with hz2 | hz2
              · exact Or.inl (List.mem_append.2 (Or.inr (by
                  rw [hz2]; exact List.mem_singleton_self _)))
              · exact Or.inr ⟨⟨t, htk, rfl⟩, Or.inl hz2⟩
            · rcases List.mem_cons.1 hmem2 with hz2 | hz2
              · have := nimS_inj hz2
                omega
              · exact Or.inr ⟨⟨t, htk, rfl⟩, Or.inr ⟨s, hs, hks, hz2⟩⟩
      · have hkm : k < m := by omega
        have hmS : m ∈ Sl := by
          rcases hm with hm | hm
          · exact hm
          · omega
        rw [leftLoop_cons_rev _ _ (nim_findL_some hmemB hcov hk hkm)]
        have hrest2 : ∀ y ∈ rest ++ (nimS k).L, ∃ s, y = nimS s ∧ (s ∈ Sl ∨ s < k) := by
          intro y hy
          rcases List.mem_append.1 hy with hy | hy
          · exact hrest y hy
          · rw [nimS_L] at hy
            rcases mem_nimSL.1 hy with ⟨i, hik, rfl⟩
            exact ⟨i, rfl, Or.inr hik⟩
        have hszsp : sizeL (rest ++ (nimS k).L) < sizeL (nimS m :: rest) :=
          splice_sizeL rest (by rw [nimS_R]; exact mem_nimSL.2 ⟨k, hkm, rfl⟩)
        have hsz2 : sizeL (rest ++ (nimS k).L) < n := by
          have h3 : sizeL (nimS m :: rest) ≤ n := hsz
          omega
        rw [ih (sizeL (rest ++ (nimS k).L)) (by omega) _ arr le_rfl hrest2 z]
        constructor
        · rintro (hz | ⟨⟨t, htk, rfl⟩, _⟩)
          · exact Or.inl hz
          · exact Or.inr ⟨⟨t, htk, rfl⟩,
              Or.inr ⟨m, hmS, hkm, List.mem_cons_self _ _⟩⟩
        · rintro (hz | ⟨⟨t, htk, rfl⟩, _⟩)
          · exact Or.inl hz
          · refine Or.inr ⟨⟨t, htk, rfl⟩, Or.inl (List.mem_append.2 (Or.inr ?_))⟩
            rw [nimS_L]
            exact mem_nimSL.2 ⟨t, htk, rfl⟩

/-- Mirror of `leftLoop_nim_mem` for the Right reduction loop. -/
theorem rightLoop_nim_mem {Sl : List Nat} {k : Nat} {B : List Game}
    (hmemB : ∀ y, y ∈ B ↔ ∃ s ∈ Sl, y = nimS s)
    (hcov : ∀ t, t < k → t ∈ Sl) (hk : k ∉ Sl) :
    ∀ n queue arr, sizeL queue ≤ n →
    (∀ y ∈ queue, ∃ s, y = nimS s ∧ (s ∈ Sl ∨ s < k)) →
    ∀ z, z ∈ rightLoop (gmk B B) arr queue ↔
      z ∈ arr ∨ ((∃ t, t < k ∧ z = nimS t) ∧
        (z ∈ queue ∨ ∃ s ∈ Sl, k < s ∧ nimS s ∈ queue)) := by
  intro n
  induction n using Nat.strong_induction_on with
  | _ n ih =>
    intro queue arr hsz hq z
    cases queue with
    | nil =>
      rw [rightLoop_nil]
      simp
    | cons x rest =>
      rcases hq x (List.mem_cons_self x rest) with ⟨m, rfl, hm⟩
      have hrest : ∀ y ∈ rest, ∃ s, y = nimS s ∧ (s ∈ Sl ∨ s < k) :=
        fun y hy => hq y (List.mem_cons_of_mem _ hy)
      have hmne : m ≠ k := by
        rcases hm with hm | hm
        · intro hc; exact hk (hc ▸ hm)
        · omega
      rcases Nat.lt_or_ge m k with hmk | hmk2
      · have hscan : scanR (nimS m) rest = (rest, true) := by
          apply scanR_no_change
          intro y hy
          rcases hrest y hy with ⟨s, rfl, _⟩
          exact cmp_nimS_not_strict m s
        have hif : (if (scanR (nimS m) rest).2 then arr ++ [nimS m] else arr) =
            arr ++ [nimS m] := by rw [hscan]; rfl
        have hfst : (scanR (nimS m) rest).1 = rest := by rw [hscan]
        rw [rightLoop_cons_scan _ _ (nim_findR_none hmemB hcov hk (le_of_lt hmk)),
          hif, hfst]
        have hsz2 : sizeL rest < n := by
          have := (nimS m).size_pos
          rw [sizeL_cons] at hsz
          omega
        rw [ih (sizeL rest) hsz2 rest (arr ++ [nimS m]) le_rfl hrest z]
        constructor
        · rintro (hz | ⟨⟨t, htk, rfl⟩, hq2⟩)
          · rcases List.mem_append.1 hz with hz | hz
            · exact Or.inl hz
            · rw [List.mem_singleton] at hz
              subst hz
              exact Or.inr ⟨⟨m, hmk, rfl⟩, Or.inl (List.mem_cons_self _ _)⟩
          · refine Or.inr ⟨⟨t, htk, rfl⟩, ?_⟩
            rcases hq2 with hz | ⟨s, hs, hks, hmem2⟩
            · exact Or.inl (List.mem_cons_of_mem _ hz)
            · exact Or.inr ⟨s, hs, hks, List.mem_cons_of_mem _ hmem2⟩
        · rintro (hz | ⟨⟨t, htk, rfl⟩, hq2⟩)
          · exact Or.inl (List.mem_append.2 (Or.inl hz))
          · rcases hq2 with hz | ⟨s, hs, hks, hmem2⟩
            · rcases List.mem_cons.1 hz with hz2 | hz2
              · exact Or.inl (List.mem_append.2 (Or.inr (by
                  rw [hz2]; exact List.mem_singleton_self _)))
              · exact Or.inr ⟨⟨t, htk, rfl⟩, Or.inl hz2⟩
            · rcases List.mem_cons.1 hmem2 with hz2 | hz2
              · have := nimS_inj hz2
                omega
              · exact Or.inr ⟨⟨t, htk, rfl⟩, Or.inr ⟨s, hs, hks, hz2⟩⟩
      · have hkm : k < m := by omega
        have hmS : m ∈ Sl := by
          rcases hm with hm | hm
          · exact hm
          · omega
        rw [rightLoop_cons_rev _ _ (nim_findR_some hmemB hcov hk hkm)]
        have hrest2 : ∀ y ∈ rest ++ (nimS k).R, ∃ s, y = nimS s ∧ (s ∈ Sl ∨ s < k) := by
          intro y hy
          rcases List.mem_append.1 hy with hy | hy
          · exact hrest y hy
          · rw [nimS_R] at hy
            rcases mem_nimSL.1 hy with ⟨i, hik, rfl⟩
            exact ⟨i, rfl, Or.inr hik⟩
        have hszsp : sizeL (rest ++ (nimS k).R) < sizeL (nimS m :: rest) := by
          rw [sizeL_append, sizeL_cons]
          have hmemk : nimS k ∈ (nimS m).L := by
            rw [nimS_L]; exact mem_nimSL.2 ⟨k, hkm, rfl⟩
          have h1 : sizeL (nimS k).R < (nimS k).size := by
            have := (nimS k).size_eq
            omega
          have h2 : (nimS k).size ≤ sizeL (nimS m).L := size_le_sizeL hmemk
          have h3 := (nimS m).size_eq
          omega
        have h3 : sizeL (nimS m :: rest) ≤ n := hsz
        rw [ih (sizeL (rest ++ (nimS k).R)) (by omega) _ arr le_rfl hrest2 z]
        constructor
        · rintro (hz | ⟨⟨t, htk, rfl⟩, _⟩)
          · exact Or.inl hz
          · exact Or.inr ⟨⟨t, htk, rfl⟩,
              Or.inr ⟨m, hmS, hkm, List.mem_cons_self _ _⟩⟩
        · rintro (hz | ⟨⟨t, htk, rfl⟩, _⟩)
          · exact Or.inl hz
          · refine Or.inr ⟨⟨t, htk, rfl⟩, Or.inl (List.mem_append.2 (Or.inr ?_))⟩
            rw [nimS_R]
            exact mem_nimSL.2 ⟨t, htk, rfl⟩

/-- Canonicalizing an impartial candidate list of nimbers with value set
`Sl` produces exactly the nim game of the least excluded value `k`. -/
theorem canonical_nim {Sl : List Nat} {k : Nat} {CL : List Game}
    (hmem : ∀ y, y ∈ CL ↔ ∃ s ∈ Sl, y = nimS s)
    (hcov : ∀ t, t < k → t ∈ Sl) (hk : k ∉ Sl) :
    canonical CL CL = nimS k := by
  have hmemB : ∀ y, y ∈ sortDedup CL ↔ ∃ s ∈ Sl, y = nimS s :=
    fun y => (mem_sortDedup).trans (hmem y)
  have hqinv : ∀ y ∈ sortDedup CL, ∃ s, y = nimS s ∧ (s ∈ Sl ∨ s < k) := by
    intro y hy
    rcases (hmemB y).1 hy with ⟨s, hs, rfl⟩
    exact ⟨s, rfl, Or.inl hs⟩
  have hL : ∀ z, z ∈ leftLoop (gmk (sortDedup CL) (sortDedup CL)) [] (sortDedup CL) ↔
      ∃ t, t < k ∧ z = nimS t := by
    intro z
    rw [leftLoop_nim_mem hmemB hcov hk (sizeL (sortDedup CL)) _ [] le_rfl hqinv z]
    constructor
    · rintro (hz | ⟨⟨t, htk, rfl⟩, _⟩)
      · cases hz
      · exact ⟨t, htk, rfl⟩
    · rintro ⟨t, htk, rfl⟩
      exact Or.inr ⟨⟨t, htk, rfl⟩, Or.inl ((hmemB _).2 ⟨t, hcov t htk, rfl⟩)⟩
  have hR : ∀ z, z ∈ rightLoop (gmk (sortDedup CL) (sortDedup CL)) [] (sortDedup CL) ↔
      ∃ t, t < k ∧ z = nimS t := by
    intro z
    rw [rightLoop_nim_mem hmemB hcov hk (sizeL (sortDedup CL)) _ [] le_rfl hqinv z]
    constructor
    · rintro (hz | ⟨⟨t, htk, rfl⟩, _⟩)
      · cases hz
      · exact ⟨t, htk, rfl⟩
    · rintro ⟨t, htk, rfl⟩
      exact Or.inr ⟨⟨t, htk, rfl⟩, Or.inl ((hmemB _).2 ⟨t, hcov t htk, rfl⟩)⟩
  have hrange : ∀ z : Game, (z ∈ (List.range k).map nimS) ↔ ∃ t, t < k ∧ z = nimS t := by
    intro z
    constructor
    · intro hz
      rcases List.mem_map.1 hz with ⟨i, hi, rfl⟩
      exact ⟨i, List.mem_range.1 hi, rfl⟩
    · rintro ⟨t, htk, rfl⟩
      exact List.mem_map.2 ⟨t, List.mem_range.2 htk, rfl⟩
  have hgL : (intern CL CL).L = sortDedup CL := gmk_L _ _
  have hgR : (intern CL CL).R = sortDedup CL := gmk_R _ _
  have hgi : intern CL CL = gmk (sortDedup CL) (sortDedup CL) := rfl
  show intern (leftLoop (intern CL CL) [] (intern CL CL).L)
      (rightLoop (intern CL CL) [] (intern CL CL).R) = nimS k
  rw [hgL, hgR]
  have e1 : sortDedup (leftLoop (intern CL CL) [] (sortDedup CL)) = nimSL k := by
    rw [nimSL]
    apply sortDedup_eq_of_mem_iff
    intro a
    rw [hgi, hL a, hrange a]
  have e2 : sortDedup (rightLoop (intern CL CL) [] (sortDedup CL)) = nimSL k := by
    rw [nimSL]
    apply sortDedup_eq_of_mem_iff
    intro a
    rw [hgi, hR a, hrange a]
  show gmk (sortDedup (leftLoop (intern CL CL) [] (sortDedup CL)))
      (sortDedup (rightLoop (intern CL CL) [] (sortDedup CL))) = nimS k
  rw [e1, e2, ← nimS_def]

theorem nimber_eq_nimS : ∀ n, nimber n = nimS n := by
  intro n
  induction n using Nat.strong_induction_on with
  | _ n ih =>
    rw [nimber_unfold]
    have hmap : (List.range n).map nimber = (List.range n).map nimS :=
      List.map_congr_left fun a ha => ih a (List.mem_range.1 ha)
    rw [hmap]
    have hmem : ∀ y, y ∈ (List.range n).map nimS ↔ ∃ s ∈ List.range n, y = nimS s := by
      intro y
      constructor
      · intro hy
        rcases List.mem_map.1 hy with ⟨i, hi, rfl⟩
        exact ⟨i, hi, rfl⟩
      · rintro ⟨s, hs, rfl⟩
        exact List.mem_map.2 ⟨s, hs, rfl⟩
    have hcov : ∀ t, t < n → t ∈ List.range n := fun t ht => List.mem_range.2 ht
    have hk : n ∉ List.range n := by
      intro hc
      exact absurd (List.mem_range.1 hc) (by omega)
    exact canonical_nim hmem hcov hk

/-- Nim addition on the explicit nim instances is bitwise xor, and the sum
routed through the canonicalizer is again the exact interned instance. -/
theorem add_nimS : ∀ i j : Nat, Game.add (nimS i) (nimS j) = nimS (i ^^^ j) := by
  have main : ∀ n i j, i + j ≤ n → Game.add (nimS i) (nimS j) = nimS (i ^^^ j) := by
    intro n
    induction n using Nat.strong_induction_on with
    | _ n ih =>
      intro i j hij
      rw [add_unfold]
      simp only [nimS_L, nimS_R]
      have hmem : ∀ y,
          y ∈ ((nimSL i).map fun xl => Game.add xl (nimS j)) ++
              ((nimSL j).map fun yl => Game.add (nimS i) yl) ↔
          ∃ s ∈ ((List.range i).map fun a => a ^^^ j) ++
                ((List.range j).map fun b => i ^^^ b), y = nimS s := by
        intro y
        constructor
        · intro hy
          rcases List.mem_append.1 hy with hy | hy
          · rcases List.mem_map.1 hy with ⟨xl, hxl, rfl⟩
            rcases mem_nimSL.1 hxl with ⟨a, hai, rfl⟩
            refine ⟨a ^^^ j, List.mem_append.2 (Or.inl
              (List.mem_map.2 ⟨a, List.mem_range.2 hai, rfl⟩)), ?_⟩
            exact ih (a + j) (by omega) a j le_rfl
          · rcases List.mem_map.1 hy with ⟨yl, hyl, rfl⟩
            rcases mem_nimSL.1 hyl with ⟨b, hbj, rfl⟩
            refine ⟨i ^^^ b, List.mem_append.2 (Or.inr
              (List.mem_map.2 ⟨b, List.mem_range.2 hbj, rfl⟩)), ?_⟩
            exact ih (i + b) (by omega) i b le_rfl
        · rintro ⟨s, hs, rfl⟩
          rcases List.mem_append.1 hs with hs | hs
          · rcases List.mem_map.1 hs with ⟨a, ha, rfl⟩
            have hai := List.mem_range.1 ha
            apply List.mem_append.2
            refine Or.inl (List.mem_map.2 ⟨nimS a, mem_nimSL.2 ⟨a, hai, rfl⟩, ?_⟩)
            exact ih (a + j) (by omega) a j le_rfl
          · rcases List.mem_map.1 hs with ⟨b, hb, rfl⟩
            have hbj := List.mem_range.1 hb
            apply List.mem_append.2
            refine Or.inr (List.mem_map.2 ⟨nimS b, mem_nimSL.2 ⟨b, hbj, rfl⟩, ?_⟩)
            exact ih (i + b) (by omega) i b le_rfl
      have hcov : ∀ t, t < i ^^^ j →
          t ∈ ((List.range i).map fun a => a ^^^ j) ++
              ((List.range j).map fun b => i ^^^ b) := by
        intro t ht
        rcases Nat.lt_xor_cases ht with hc | hc
        · apply List.mem_append.2
          refine Or.inl (List.mem_map.2 ⟨t ^^^ j, List.mem_range.2 hc, ?_⟩)
          exact Nat.xor_cancel_right j t
        · apply List.mem_append.2
          refine Or.inr (List.mem_map.2 ⟨t ^^^ i, List.mem_range.2 hc, ?_⟩)
          rw [Nat.xor_comm t i]
          exact Nat.xor_cancel_left i t
      have hk : i ^^^ j ∉ ((List.range i).map fun a => a ^^^ j) ++
          ((List.range j).map fun b => i ^^^ b) := by
        intro hc
        rcases List.mem_append.1 hc with hc | hc
        · rcases List.mem_map.1 hc with ⟨a, ha, haeq⟩
          have hai := List.mem_range.1 ha
          have : a = i := by
            have h1 := Nat.xor_cancel_right j a
            have h2 := Nat.xor_cancel_right j i
            rw [← h1, haeq, h2]
          omega
        · rcases List.mem_map.1 hc with ⟨b, hb, hbeq⟩
          have hbj := List.mem_range.1 hb
          have : b = j := by
            have h1 := Nat.xor_cancel_left i b
            have h2 := Nat.xor_cancel_left i j
            rw [← h1, hbeq, h2]
          omega
      exact canonical_nim hmem hcov hk
  intro i j
  exact main (i + j) i j le_rfl

theorem nimS_zero : nimS 0 = zeroG := by
  rw [nimS_def]
  have h : nimSL 0 = [] := rfl
  rw [h]
  rfl

/-- C9: for every n, `nimber(n)` is the game whose Left and Right option
sets are both the set of `nimber(0), ..., nimber(n-1)`; the sum
`nimber(n) + nimber(n)` is the zero game instance; and `nimber(0)` is the
zero game instance. -/
theorem c9_nimber (n : Nat) :
    (nimber n).L = (nimber n).R ∧
    (∀ y, y ∈ (nimber n).L ↔ ∃ i < n, y = nimber i) ∧
    Game.add (nimber n) (nimber n) = zeroG ∧
    nimber 0 = zeroG := by
  refine ⟨?_, ?_, ?_, ?_⟩
  · rw [nimber_eq_nimS n, nimS_L, nimS_R]
  · intro y
    rw [nimber_eq_nimS n, nimS_L, mem_nimSL]
    constructor
    · rintro ⟨i, hi, rfl⟩
      exact ⟨i, hi, (nimber_eq_nimS i).symm⟩
    · rintro ⟨i, hi, hy⟩
      exact ⟨i, hi, by rw [hy, nimber_eq_nimS i]⟩
  · rw [nimber_eq_nimS n, add_nimS n n, Nat.xor_self, nimS_zero]
  · rw [nimber_eq_nimS 0, nimS_zero]

end Conway

